import Mathlib

/-!
# Verification of the deep-scrape crawl/download/deduplication pipeline

A shallow embedding of the TypeScript sources of the `deep-scrape`
repository (`src/downloader.ts`, `src/crawler.ts` in `index.ts`,
`src/duplicate-scanner.ts`, `src/deduplicator.ts`, `src/types.ts`),
together with theorems settling the specification claims.

Modelling conventions:
* JavaScript `Set` objects become `Finset String`.
* The filesystem is a state value: an association list of
  `(path, FileData)` for regular files plus a `Finset String` of
  directories.  `FileData` carries the observations of the content
  primitives (byte size, content hash, perceptual hash, pixel
  dimensions), which the real code obtains through `getFileHash`,
  `getVisualHash` and `getImageDimensions`.
* The network is an oracle: per retry attempt and per URL it yields an
  optional `HttpResponse`; `none` models a request error or timeout.
* Asynchronous interleaving is not modelled: each `processDownload`
  call runs atomically (the spec requires check-then-insert on the
  shared sets to be indivisible), so sequential composition is the
  faithful semantics for the claims treated here.
* Primitive failures (a hashing or stat error on an individual file)
  are not modelled; the corresponding `catch` branches in the dedup
  code are therefore inert in the embedding.
-/

/-! ## Basic data: file observations and filesystem state -/

/-- Observations of one on-disk file: its byte size together with the
values the content primitives would return for it (`getFileHash`,
`getVisualHash`, `getImageDimensions`).  `visualHash = none` models the
perceptual-hash primitive returning `null`; `dims = none` models
unreadable dimensions. -/
structure FileData where
  size : Nat
  hash : String
  visualHash : Option String
  dims : Option (Nat × Nat)
deriving DecidableEq, Repr

/-- Lookup in an association list of files (first match). -/
def lookupFile : List (String × FileData) → String → Option FileData
  | [], _ => none
  | (q, d) :: rest, p => if q = p then some d else lookupFile rest p

/-- Filesystem state: regular files (path ↦ data, association list whose
order is the directory-walk order) and the set of directories. -/
structure FS where
  files : List (String × FileData)
  dirs : Finset String
deriving DecidableEq

/-- `fs.stat`/file lookup. -/
def FS.lookup (fs : FS) (p : String) : Option FileData :=
  lookupFile fs.files p

/-- Remove every entry keyed `p` from an association list. -/
def eraseKey (p : String) : List (String × FileData) → List (String × FileData)
  | [] => []
  | e :: rest => if e.1 = p then eraseKey p rest else e :: eraseKey p rest

/-- `fs.unlink p`: remove the file at `p` (no-op when absent, matching
the `catch {}` around `fs.unlink` in the sources). -/
def FS.unlink (fs : FS) (p : String) : FS :=
  { fs with files := eraseKey p fs.files }

/-- `createWriteStream p` followed by a completed pipe: create or
truncate-and-replace the file at `p`. -/
def FS.write (fs : FS) (p : String) (d : FileData) : FS :=
  { fs with files := eraseKey p fs.files ++ [(p, d)] }

/-- `fs.mkdir(dir, { recursive: true })`. -/
def FS.mkdir (fs : FS) (p : String) : FS :=
  { fs with dirs := insert p fs.dirs }

/-! ## Downloader (`src/downloader.ts`) -/

/-- Session configuration (`Config` in `src/types.ts`), restricted to the
fields the downloader reads.  `index.ts` fixes `maxRetries := 3`,
`delayMs := 100`. -/
structure Config where
  outputDir : String
  resume : Bool
  dryRun : Bool
  maxRetries : Nat
  skipDuplicates : Bool
  minWidth : Nat
  minHeight : Nat
  delayMs : Nat
deriving DecidableEq

/-- `CrawlState` from `src/types.ts`: the four shared string sets. -/
structure CrawlState where
  visitedUrls : Finset String
  allowedDomains : Finset String
  downloadedUrls : Finset String
  contentHashes : Finset String
deriving DecidableEq

/-- What the write stream leaves on disk for a 200 response: either the
complete body, or (on a stream error) some partially written file —
`createWriteStream` has already created the file either way. -/
inductive StreamOutcome where
  | complete (data : FileData)
  | streamError (leftover : FileData)
deriving DecidableEq

/-- One HTTP response as `downloadFile` inspects it: status code,
optional `Location` header, and what piping the body produces. -/
structure HttpResponse where
  statusCode : Nat
  location : Option String
  body : StreamOutcome
deriving DecidableEq

/-- The network oracle for one `downloadFile` call: `none` is a request
error or timeout (no response, no file touched). -/
def RespEnv := String → Option HttpResponse

/-- The redirect test of `downloadFile` (line 30): a 301/302 status
whose `Location` header is present yields the redirect target. -/
def redirectTarget (r : HttpResponse) : Option String :=
  if r.statusCode = 301 ∨ r.statusCode = 302 then r.location else none

/-- The non-redirect tail of `downloadFile` (lines 38–54): fail on a
non-200 status, otherwise pipe the body to `filepath`; a stream error
still leaves the (partial) file `createWriteStream` produced. -/
def httpFinish (r : HttpResponse) (filepath : String) (fs : FS) : Bool × FS :=
  if r.statusCode ≠ 200 then (false, fs)
  else
    match r.body with
    | .complete data => (true, fs.write filepath data)
    | .streamError leftover => (false, fs.write filepath leftover)

/-- `Downloader.downloadFile(url, filepath)`: follow 301/302 redirects
that carry a `Location` header (recursively, same filepath), fail on any
other non-200 status, and on 200 pipe the body to `filepath`.  Returns
the `resolve`d boolean and the filesystem after the call.  `fuel` bounds
the redirect chain (the source recurses unboundedly; theorems supply
enough fuel for the chains they mention). -/
def downloadFile (resp : RespEnv) : Nat → String → String → FS → Bool × FS
  | fuel + 1, url, filepath, fs =>
    match resp url with
    | none => (false, fs)
    | some r =>
      match redirectTarget r with
      | some redirectUrl => downloadFile resp fuel redirectUrl filepath fs
      | none => httpFinish r filepath fs
  | 0, url, filepath, fs =>
    match resp url with
    | none => (false, fs)
    | some r =>
      match redirectTarget r with
      | some _ => (false, fs)
      | none => httpFinish r filepath fs

/-- The retry loop of `processDownload` (lines 107–119): up to
`maxRetries` attempts, a fixed 1-second back-off before every attempt
but the first, stop at the first success.  `env retry` is the network
oracle seen by attempt number `retry` (0-based); `remaining` counts the
attempts still allowed, so the loop guard `retry < maxRetries` becomes
`remaining > 0` (callers pass `remaining = maxRetries - retry`).
Returns `(success, fs, attempts made, back-off delays waited)`. -/
def tryLoop (env : Nat → RespEnv) (fuel : Nat) (url filepath : String) :
    Nat → Nat → FS → Bool × FS × Nat × Nat
  | retry, remaining + 1, fs =>
    let r := downloadFile (env retry) fuel url filepath fs
    if r.1 then (true, r.2, retry + 1, retry)
    else tryLoop env fuel url filepath (retry + 1) remaining r.2
  | retry, 0, fs => (false, fs, retry, retry - 1)

/-- The whole retry phase, started at `retry = 0`. -/
def tryDownload (env : Nat → RespEnv) (fuel : Nat) (url filepath : String)
    (maxRetries : Nat) (fs : FS) : Bool × FS × Nat × Nat :=
  tryLoop env fuel url filepath 0 maxRetries fs

/-- Pure URL helpers from `utils/url-utils.ts` (not under `src/`), kept
abstract: the claims treated here do not depend on how a host or a
filename is parsed out of a URL string. -/
structure UrlPrims where
  getDomain : String → String
  getFilenameFromUrl : String → String

/-- Split a character list at every occurrence of `sep` (the model of
JavaScript/Node string splitting on a one-character separator, written
over `List Char` so that it evaluates by kernel reduction). -/
def splitCharList (sep : Char) : List Char → List (List Char)
  | [] => [[]]
  | c :: cs =>
    let r := splitCharList sep cs
    if c = sep then [] :: r
    else match r with
      | [] => [[c]]
      | g :: gs => (c :: g) :: gs

/-- Split a string at every occurrence of the character `sep`. -/
def splitOnChar (sep : Char) (s : String) : List String :=
  (splitCharList sep s.toList).map fun cs => String.mk cs

/-- ASCII lower-casing of one character (`toLowerCase` on the inputs
this code handles). -/
def charLower (c : Char) : Char :=
  if 'A' ≤ c ∧ c ≤ 'Z' then Char.ofNat (c.toNat + 32) else c

/-- ASCII `toLowerCase`. -/
def strLower (s : String) : String := String.mk (s.toList.map charLower)

/-- Append `_k` before the extension of `p` (the numeric-suffix scheme
of the collision resolver). -/
def suffixPath (p : String) (k : Nat) : String :=
  let parts := splitOnChar '.' p
  if parts.length ≤ 1 then p ++ "_" ++ toString k
  else
    String.intercalate "." (parts.dropLast) ++ "_" ++ toString k ++ "." ++
      (parts.getLastD "")

/-- Modelled from the spec: `ensureUniqueFilepath` from
`utils/file-utils.ts` is not under `src/`; §4.3 step 5 says collisions
are resolved "by appending a numeric suffix before the extension until a
non-existing path is found".  The search is bounded by the number of
files plus one, which always suffices to find a free candidate. -/
def ensureUniqueFilepath (fs : FS) (p : String) : String :=
  if fs.lookup p = none then p
  else
    match (List.range (fs.files.length + 1)).find?
        (fun k => fs.lookup (suffixPath p (k + 1)) = none) with
    | some k => suffixPath p (k + 1)
    | none => p

/-- Every exit point of `Downloader.processDownload`. -/
inductive DlOutcome where
  | skippedAlready    -- url already in downloadedUrls (line 69)
  | skippedDomain     -- domain not in allowedDomains (line 74)
  | skippedResume     -- resume mode, non-empty file already there (line 92)
  | dryRunReport      -- dry-run report-and-stop (line 102)
  | failedRetries     -- all retries failed (line 121)
  | fileNotFound      -- stat after download failed (line 135)
  | emptyFile         -- zero-byte download (line 130)
  | dupContent        -- content hash already seen (line 143)
  | tooSmall          -- below configured minimum dimensions (line 159)
  | success           -- kept on disk (line 170)
deriving DecidableEq, Repr

/-- Result of one `processDownload` call: the exit taken, the session
state and filesystem afterwards, and the resolved destination path (once
processing got that far). -/
structure DlResult where
  outcome : DlOutcome
  state : CrawlState
  fs : FS
  target : Option String
deriving DecidableEq

/-- Image extensions checked by the dimension filter
(`downloader.ts` line 153). -/
def dlImageExtensions : List String :=
  ["jpg", "jpeg", "png", "gif", "webp", "avif"]

/-- `path.basename(p)`: the final `/`-separated segment. -/
def fileNameOf (p : String) : String := (splitOnChar '/' p).getLastD ""

/-- `path.extname(p)`: the extension of the basename including the dot,
original case ("" when there is no dot). -/
def extnameOf (p : String) : String :=
  let parts := splitOnChar '.' (fileNameOf p)
  if parts.length ≤ 1 then "" else "." ++ parts.getLastD ""

/-- The form used throughout the sources:
`path.extname(p).toLowerCase().slice(1)`. -/
def extLowerOf (p : String) : String := (strLower (extnameOf p)).drop 1

/-- Steps of `processDownload` from the duplicate-content check on
(lines 140–175), split out for readability. -/
def dlFinish (cfg : Config) (st : CrawlState) (fs : FS) (filepath : String)
    (data : FileData) : DlResult :=
  -- Check for duplicate content (skipDuplicates)
  let fileHash := data.hash
  if cfg.skipDuplicates ∧ fileHash ∈ st.contentHashes then
    ⟨.dupContent, st, fs.unlink filepath, some filepath⟩
  else
    let st := if cfg.skipDuplicates then
      { st with contentHashes := insert fileHash st.contentHashes } else st
    -- Check image dimensions
    let ext := extLowerOf filepath
    if ext ∈ dlImageExtensions then
      match data.dims with
      | some (width, height) =>
        if (cfg.minWidth > 0 ∧ width < cfg.minWidth) ∨
           (cfg.minHeight > 0 ∧ height < cfg.minHeight) then
          ⟨.tooSmall, st, fs.unlink filepath, some filepath⟩
        else ⟨.success, st, fs, some filepath⟩
      | none => ⟨.success, st, fs, some filepath⟩
    else ⟨.success, st, fs, some filepath⟩

/-- The resume check (lines 88–98): a non-empty file already at the
destination. -/
def resumeHit (cfg : Config) (fs : FS) (filepath : String) : Bool :=
  cfg.resume && (match fs.lookup filepath with
                 | some stats => stats.size > 0
                 | none => false : Bool)

/-- The network phase of `processDownload` (lines 107–138): retry loop,
failure cleanup, and the stat/empty-file check, continuing into
`dlFinish`. -/
def pdFetchPhase (cfg : Config) (env : Nat → RespEnv) (fuel : Nat)
    (st : CrawlState) (fs : FS) (url filepath : String) : DlResult :=
  -- Try downloading with retries
  let r := tryDownload env fuel url filepath cfg.maxRetries fs
  if ¬ r.1 then ⟨.failedRetries, st, r.2.1.unlink filepath, some filepath⟩
  else
    -- Check if file exists and has content
    match r.2.1.lookup filepath with
    | none => ⟨.fileNotFound, st, r.2.1, some filepath⟩
    | some stats =>
      if stats.size = 0 then
        ⟨.emptyFile, st, r.2.1.unlink filepath, some filepath⟩
      else dlFinish cfg st r.2.1 filepath stats

/-- `Downloader.processDownload(url)` (lines 68–176), for one call run
to completion (the spec requires the check-then-insert on the shared
sets to be atomic relative to other workers). -/
def processDownload (cfg : Config) (prims : UrlPrims) (env : Nat → RespEnv)
    (fuel : Nat) (st : CrawlState) (fs : FS) (url : String) : DlResult :=
  if url ∈ st.downloadedUrls then ⟨.skippedAlready, st, fs, none⟩
  else
    let domain := prims.getDomain url
    if domain ∉ st.allowedDomains then ⟨.skippedDomain, st, fs, none⟩
    else
      let st := { st with downloadedUrls := insert url st.downloadedUrls }
      let domainDir := cfg.outputDir ++ "/" ++ domain
      let fs := fs.mkdir domainDir
      let filename := prims.getFilenameFromUrl url
      let filepath := domainDir ++ "/" ++ filename
      -- Check if file already exists (resume mode)
      if resumeHit cfg fs filepath then ⟨.skippedResume, st, fs, some filepath⟩
      else
        let filepath := ensureUniqueFilepath fs filepath
        if cfg.dryRun then ⟨.dryRunReport, st, fs, some filepath⟩
        else pdFetchPhase cfg env fuel st fs url filepath

/-! ## Crawler (`src/crawler.ts`, class `BrowserCrawler`) -/

/-- What rendering one page yields, past the external renderer: the
already-normalised, already-filtered media URLs from
`extractMediaUrls` and the same-domain page links from
`extractPageLinks`, in document order. -/
structure PageData where
  media : List String
  links : List String

/-- A page environment: `none` is a render failure (`page.goto` threw),
handled non-fatally by `crawlPage`. -/
def PageEnv := String → Option PageData

/-- Result of a (sub)crawl: accumulated media URLs, the visited set
afterwards, and the pages actually rendered, in visitation order. -/
structure CrawlRes where
  media : List String
  visited : Finset String
  rendered : List String

/-- Sequential link recursion of `crawlPage` (the `for (const link of
links)` loop, lines 487–500), parameterised by the recursive call `f`
applied to each link. -/
def crawlLinks (f : String → Finset String → CrawlRes) :
    List String → CrawlRes → CrawlRes
  | [], acc => acc
  | l :: ls, acc =>
    let r := f l acc.visited
    crawlLinks f ls ⟨acc.media ++ r.media, r.visited, acc.rendered ++ r.rendered⟩

/-- `BrowserCrawler.crawlPage` for non-negative depth (the shutdown flag
is false throughout: a live, uncancelled session).  At depth 0 links are
not followed (`if (depth > 0)`); at depth d+1 every extracted link is
crawled sequentially at depth d.  A render failure marks the URL visited
but contributes nothing. -/
def crawlGo (env : PageEnv) : Nat → String → Finset String → CrawlRes
  | 0, url, vis =>
    if url ∈ vis then ⟨[], vis, []⟩
    else
      match env url with
      | none => ⟨[], insert url vis, [url]⟩
      | some pg => ⟨pg.media, insert url vis, [url]⟩
  | d + 1, url, vis =>
    if url ∈ vis then ⟨[], vis, []⟩
    else
      match env url with
      | none => ⟨[], insert url vis, [url]⟩
      | some pg =>
        crawlLinks (crawlGo env d) pg.links ⟨pg.media, insert url vis, [url]⟩

/-- `BrowserCrawler.crawlPage(url, depth, …)` with the source's `Int`
depth: `depth < 0` (or an already-visited url) short-circuits before any
browser work (line 437). -/
def crawlPage (env : PageEnv) (url : String) (depth : Int)
    (vis : Finset String) : CrawlRes :=
  if depth < 0 ∨ url ∈ vis then ⟨[], vis, []⟩
  else crawlGo env depth.toNat url vis

/-- `u` is reachable from `v` in at most `n` link-hops of `env`. -/
inductive HopsLe (env : PageEnv) : Nat → String → String → Prop
  | refl (n u) : HopsLe env n u u
  | step {n u pg v w} : env u = some pg → v ∈ pg.links →
      HopsLe env n v w → HopsLe env (n + 1) u w

/-- The recognised CDN/asset-host substrings of
`discoverAllowedDomains` (crawler.ts lines 407–414). -/
def cdnMarkers : List String :=
  ["cdn", "cloudinary", "imgix", "images", "static", "squarespace"]

/-- JavaScript `String.prototype.includes`: substring containment. -/
def strContains (s sub : String) : Bool :=
  decide (sub.toList <:+: s.toList)

/-- The filter of `discoverAllowedDomains`: keep the seed domain and any
domain matching a recognised marker. -/
def keepDomain (sourceDomain d : String) : Bool :=
  d = sourceDomain || (cdnMarkers.any fun m => strContains d m)

/-- `BrowserCrawler.discoverAllowedDomains(url)` (lines 362–426) over
its renderer observation: `observed = some hosts` gives the domains of
the normalised media URLs found in `src`/`href` attributes of the seed
page, in document order ("" for a URL `getDomain` maps to an empty,
falsy host); `observed = none` is a render failure, which returns the
set accumulated so far — just the seed domain. -/
def discoverAllowedDomains (sourceDomain : String)
    (observed : Option (List String)) : Finset String :=
  match observed with
  | none => {sourceDomain}
  | some hosts =>
    let allowedDomains : Finset String :=
      hosts.foldl (fun s d => if d ≠ "" then insert d s else s)
        ({sourceDomain} : Finset String)
    -- Filter to only keep CDN and image hosting domains
    insert sourceDomain (allowedDomains.filter fun d =>
      keepDomain sourceDomain d)

/-! ## Shared dedup helpers -/

/-- `path.dirname(p)`: everything before the final `/`-separated
segment. -/
def dirOf (p : String) : String :=
  String.intercalate "/" ((splitOnChar '/' p).dropLast)

/-- `MEDIA_EXTENSIONS` from `src/types.ts`. -/
def mediaExtensionsImages : List String :=
  ["jpg", "jpeg", "png", "gif", "webp", "svg", "avif", "ico"]

def mediaExtensionsVideos : List String :=
  ["mp4", "webm", "mov", "avi", "mkv"]

/-- `this.mediaExtensions` of `DuplicateScanner`. -/
def scannerMediaExtensions : List String :=
  mediaExtensionsImages ++ mediaExtensionsVideos

/-- `this.imageExtensions` of `DuplicateScanner` (also the dimension
filter list in the downloader). -/
def scannerImageExtensions : List String :=
  ["jpg", "jpeg", "png", "gif", "webp", "avif"]

/-- Unlink a list of paths in order (the per-group deletion loops). -/
def unlinkAll (fs : FS) (ps : List String) : FS := ps.foldl FS.unlink fs

/-- JavaScript `Map`-based grouping as used throughout the dedup code:
elements are pushed into the bucket of their key in iteration order,
buckets appear in first-key-occurrence order, elements whose key is
absent (`null` hash) are skipped.  Rendered recursively: the first keyed
element opens its bucket with all later elements of the same key; the
rest is grouped among the remaining elements. -/
def groupByKeyFuel {α : Type} (key : α → Option String) :
    Nat → List α → List (String × List α)
  | _, [] => []
  | 0, _ :: _ => []
  | fuel + 1, a :: rest =>
    match key a with
    | none => groupByKeyFuel key fuel rest
    | some k =>
      (k, a :: rest.filter (fun b => key b = some k)) ::
        groupByKeyFuel key fuel (rest.filter (fun b => ¬ key b = some k))

def groupByKey {α : Type} (key : α → Option String)
    (l : List α) : List (String × List α) :=
  groupByKeyFuel key l.length l

/-- The quality preorder of `sortByQuality` (scanner) and the inline
comparators of `deduplicator.ts`: `a` sorts before `b` when it has more
pixels, or equal pixels and at least the byte size. -/
def qualityBefore (pa sa pb sb : Nat) : Prop :=
  pb < pa ∨ (pa = pb ∧ sb ≤ sa)

/-! ## `DuplicateScanner` (`src/duplicate-scanner.ts`) -/

/-- `FileInfo` of the scanner.  The optional analysis fields
(`contentHash`, `visualHash`, `width/height` as `pixels`) are filled in
by the scan phases in the source; the embedding precomputes them from
the file's `FileData`, which is equivalent because each phase only reads
a field after computing it and primitive failures are not modelled.
The `baseName` field is omitted: `scan` runs only the identical and
visual phases, which never read it. -/
structure FileInfo where
  filepath : String
  filename : String
  ext : String
  size : Nat
  contentHash : Option String
  visualHash : Option String
  pixels : Option Nat
deriving DecidableEq, Repr

def mkFileInfo (p : String) (d : FileData) : FileInfo :=
  { filepath := p
    filename := fileNameOf p
    ext := extLowerOf p
    size := d.size
    contentHash := some d.hash
    visualHash := d.visualHash
    pixels := d.dims.map (fun wh => wh.1 * wh.2) }

/-- `findMediaFiles(directory)`: recursive walk filtered to media
extensions; the association-list order of `fs` is the walk order. -/
def findMediaFiles (fs : FS) : List FileInfo :=
  fs.files.filterMap fun e =>
    if extLowerOf e.1 ∈ scannerMediaExtensions then some (mkFileInfo e.1 e.2)
    else none

/-- `reason` of a `DuplicateGroup`. -/
inductive DupReason where
  | identical
  | visual
  | filename
deriving DecidableEq, Repr

/-- `DuplicateGroup`: `original` survives, `duplicates` are slated for
deletion. -/
structure DuplicateGroup where
  original : FileInfo
  duplicates : List FileInfo
  reason : DupReason
deriving DecidableEq, Repr

/-- All members of a group, survivor first. -/
def membersOf (g : DuplicateGroup) : List FileInfo :=
  g.original :: g.duplicates

/-- Sort order of `sortByQuality`: pixels descending (absent = 0), then
byte size descending. -/
def fiQualityRel (a b : FileInfo) : Prop :=
  qualityBefore (a.pixels.getD 0) a.size (b.pixels.getD 0) b.size

instance : DecidableRel fiQualityRel := fun _ _ => by
  unfold fiQualityRel qualityBefore; infer_instance

instance : IsTotal FileInfo fiQualityRel :=
  ⟨fun a b => by unfold fiQualityRel qualityBefore; omega⟩

instance : IsTrans FileInfo fiQualityRel :=
  ⟨fun a b c h₁ h₂ => by unfold fiQualityRel qualityBefore at h₁ h₂ ⊢; omega⟩

/-- Sort order of `findIdenticalFiles`: filename length ascending
(shorter name is assumed to be the non-suffixed original). -/
def fiNameLenRel (a b : FileInfo) : Prop :=
  a.filename.length ≤ b.filename.length

instance : DecidableRel fiNameLenRel := fun _ _ => by
  unfold fiNameLenRel; infer_instance

instance : IsTotal FileInfo fiNameLenRel :=
  ⟨fun a b => Nat.le_total a.filename.length b.filename.length⟩

instance : IsTrans FileInfo fiNameLenRel :=
  ⟨fun _ _ _ h₁ h₂ => Nat.le_trans h₁ h₂⟩

/-- `findIdenticalFiles(files)`: group by content hash; a group of ≥ 2
becomes a `DuplicateGroup` sorted by filename length, shortest name
surviving.  (JavaScript's stable sort is modelled by insertion sort;
the claims only depend on the head being minimal.) -/
def findIdenticalFiles (files : List FileInfo) : List DuplicateGroup :=
  (groupByKey (fun f => f.contentHash) files).filterMap fun kg =>
    if kg.2.length < 2 then none
    else
      match List.insertionSort fiNameLenRel kg.2 with
      | [] => none
      | orig :: dups => some ⟨orig, dups, .identical⟩

/-- The `excludeHashes` set built in `scan` (lines 238–244): the content
hashes of the duplicates of the identical groups. -/
def excludeHashesOf (groups : List DuplicateGroup) : Finset String :=
  ((groups.flatMap (·.duplicates)).filterMap (·.contentHash)).toFinset

/-- The eligibility filter of `findVisuallySimilar` (lines 156–160):
images only, minus files whose content hash was already excluded. -/
def visualEligible (excludeHashes : Finset String) (f : FileInfo) : Bool :=
  f.ext ∈ scannerImageExtensions &&
    !(match f.contentHash with
      | some h => h ∈ excludeHashes
      | none => false : Bool)

/-- `findVisuallySimilar(files, excludeHashes)`: filter to eligible
images, group by **equality** of visual hash (a `Map` keyed by the hash
string), and turn each group of ≥ 2 into a `DuplicateGroup` sorted by
quality, best surviving. -/
def findVisuallySimilar (files : List FileInfo)
    (excludeHashes : Finset String) : List DuplicateGroup :=
  let imageFiles := files.filter (visualEligible excludeHashes)
  (groupByKey (fun f => f.visualHash) imageFiles).filterMap fun kg =>
    if kg.2.length < 2 then none
    else
      match List.insertionSort fiQualityRel kg.2 with
      | [] => none
      | orig :: dups => some ⟨orig, dups, .visual⟩

/-- The group list `allGroups` computed by `DuplicateScanner.scan`
before its deletion loop. -/
def scanGroups (fs : FS) : List DuplicateGroup :=
  let files := findMediaFiles fs
  let identicalGroups := findIdenticalFiles files
  let excludeHashes := excludeHashesOf identicalGroups
  identicalGroups ++ findVisuallySimilar files excludeHashes

/-- Result of `DuplicateScanner.scan`. -/
structure ScanResult where
  groups : List DuplicateGroup
  fs : FS
  found : Nat
  deleted : Nat
  freedBytes : Nat
deriving DecidableEq

/-- `DuplicateScanner.scan(directory, {dryRun})` (lines 207–306): the
groups are computed either way; the deletion loop unlinks every
duplicate unless `dryRun` is set, in which case it only reports. -/
def scan (fs : FS) (dryRun : Bool) : ScanResult :=
  let allGroups := scanGroups fs
  let dups := allGroups.flatMap (·.duplicates)
  { groups := allGroups
    fs := if dryRun then fs else unlinkAll fs (dups.map (·.filepath))
    found := dups.length
    deleted := if dryRun then 0 else dups.length
    freedBytes := (dups.map (·.size)).sum }

/-! ## `VisualDeduplicator` (`src/deduplicator.ts`, three-phase version) -/

/-- Strip a trailing `_<digits>` suffix (the regex `_\d+$` of
`deduplicate`, line 45). -/
def stripNumSuffix (s : String) : String :=
  let cs := s.toList.reverse
  let ds := cs.takeWhile Char.isDigit
  match ds, cs.drop ds.length with
  | _ :: _, '_' :: rest => String.mk rest.reverse
  | _, _ => s

/-- Image extensions of `findImageFiles` in `deduplicator.ts`
(dot-prefixed, compared against `path.extname(..).toLowerCase()`). -/
def dedupImageExtensions : List String :=
  [".jpg", ".jpeg", ".png", ".gif", ".webp", ".avif"]

/-- `findImageFiles(dir)`: the walk filtered to image extensions. -/
def findImageFiles (fs : FS) : List String :=
  fs.files.filterMap fun e =>
    if strLower (extnameOf e.1) ∈ dedupImageExtensions then some e.1 else none

/-- `ImageInfo` of `deduplicate` (path, filename, `_N`-stripped base
name, lowercased extension, pixel count — 0 when dimensions are
unreadable — and byte size). -/
structure IInfo where
  path : String
  filename : String
  baseName : String
  ext : String
  pixels : Nat
  size : Nat
deriving DecidableEq, Repr

/-- The info-building loop of `deduplicate` (lines 38–62).  `ext` is
nonempty for every file of `findImageFiles`, so the JavaScript
`slice(0, -ext.length)` edge case for empty extensions is unreachable
here. -/
def buildImageInfos (fs : FS) (paths : List String) : List IInfo :=
  paths.filterMap fun p =>
    (fs.lookup p).map fun d =>
      let filename := fileNameOf p
      let ext := extnameOf p
      let nameWithoutExt := filename.dropRight ext.length
      { path := p
        filename := filename
        baseName := stripNumSuffix nameWithoutExt
        ext := strLower ext
        pixels := (d.dims.map fun wh => wh.1 * wh.2).getD 0
        size := d.size }

/-- Quality order on `IInfo` (pixels descending, then size
descending). -/
def iQualityRel (a b : IInfo) : Prop :=
  qualityBefore a.pixels a.size b.pixels b.size

instance : DecidableRel iQualityRel := fun _ _ => by
  unfold iQualityRel qualityBefore; infer_instance

instance : IsTotal IInfo iQualityRel :=
  ⟨fun a b => by unfold iQualityRel qualityBefore; omega⟩

instance : IsTrans IInfo iQualityRel :=
  ⟨fun a b c h₁ h₂ => by unfold iQualityRel qualityBefore at h₁ h₂ ⊢; omega⟩

/-- Filename-length order on `IInfo` (ascending). -/
def iNameLenRel (a b : IInfo) : Prop :=
  a.filename.length ≤ b.filename.length

instance : DecidableRel iNameLenRel := fun _ _ => by
  unfold iNameLenRel; infer_instance

instance : IsTotal IInfo iNameLenRel :=
  ⟨fun a b => Nat.le_total a.filename.length b.filename.length⟩

instance : IsTrans IInfo iNameLenRel :=
  ⟨fun _ _ _ h₁ h₂ => Nat.le_trans h₁ h₂⟩

/-- Grouping key of `removeFilenameDuplicates`:
`` `${dir}/${baseName}${ext}` ``. -/
def fnameKey (i : IInfo) : String :=
  dirOf i.path ++ "/" ++ i.baseName ++ i.ext

/-- The groups of ≥ 2 formed by `removeFilenameDuplicates`, each sorted
best-quality-first. -/
def fnameGroups (infos : List IInfo) : List (List IInfo) :=
  (groupByKey (fun i => some (fnameKey i)) infos).filterMap fun kg =>
    if kg.2.length < 2 then none
    else some (List.insertionSort iQualityRel kg.2)

/-- `removeFilenameDuplicates(imageInfos)` (lines 94–139): keep the head
of each sorted group, unlink the rest.  Returns `(removed, fs)`. -/
def removeFilenameDuplicates (infos : List IInfo) (fs : FS) : Nat × FS :=
  let toRemove := (fnameGroups infos).flatMap (·.drop 1)
  (toRemove.length, unlinkAll fs (toRemove.map (·.path)))

/-- The groups of ≥ 2 formed by `removeContentDuplicates`: grouped by
the content hash read from the current filesystem, sorted by filename
length ascending. -/
def contentGroups (fs : FS) (infos : List IInfo) : List (List IInfo) :=
  (groupByKey (fun i => (fs.lookup i.path).map (·.hash)) infos).filterMap
    fun kg =>
      if kg.2.length < 2 then none
      else some (List.insertionSort iNameLenRel kg.2)

/-- `removeContentDuplicates(imageInfos)` (lines 141–186). -/
def removeContentDuplicates (infos : List IInfo) (fs : FS) : Nat × FS :=
  let toRemove := (contentGroups fs infos).flatMap (·.drop 1)
  (toRemove.length, unlinkAll fs (toRemove.map (·.path)))

/-- The per-image record of `removeVisualDuplicates` (path, visual hash,
pixel count, byte size); files whose visual hash is `null` are
skipped. -/
structure VInfo where
  path : String
  hash : String
  pixels : Nat
  size : Nat
deriving DecidableEq, Repr

/-- The info-building loop of `removeVisualDuplicates`
(lines 196–214). -/
def buildVInfos (fs : FS) (paths : List String) : List VInfo :=
  paths.filterMap fun p =>
    (fs.lookup p).bind fun d =>
      d.visualHash.map fun h =>
        { path := p
          hash := h
          pixels := (d.dims.map fun wh => wh.1 * wh.2).getD 0
          size := d.size }

/-- Quality order on `VInfo`. -/
def vQualityRel (a b : VInfo) : Prop :=
  qualityBefore a.pixels a.size b.pixels b.size

instance : DecidableRel vQualityRel := fun _ _ => by
  unfold vQualityRel qualityBefore; infer_instance

instance : IsTotal VInfo vQualityRel :=
  ⟨fun a b => by unfold vQualityRel qualityBefore; omega⟩

instance : IsTrans VInfo vQualityRel :=
  ⟨fun a b c h₁ h₂ => by unfold vQualityRel qualityBefore at h₁ h₂ ⊢; omega⟩

/-- The inner `for (let j = i + 1; …)` loop of `removeVisualDuplicates`
(lines 227–234): collect every later image, not yet `used`, whose hash
is similar to the seed's, marking each as used. -/
def scanFrom (similar : String → String → Bool) (infos : List VInfo)
    (seedHash : String) : Nat → Nat → Finset Nat → List VInfo × Finset Nat
  | j, remaining + 1, used =>
    match infos[j]? with
    | some y =>
      if j ∈ used then scanFrom similar infos seedHash (j + 1) remaining used
      else if similar seedHash y.hash then
        let r := scanFrom similar infos seedHash (j + 1) remaining (insert j used)
        (y :: r.1, r.2)
      else scanFrom similar infos seedHash (j + 1) remaining used
    | none => ([], used)
  | _, 0, used => ([], used)

/-- The outer `for (let i = 0; …)` loop of `removeVisualDuplicates`
(lines 220–256), producing the greedy clusters in seed order (clusters
of size 1 included; they are discarded by the ≥ 2 check afterwards). -/
def outerLoop (similar : String → String → Bool) (infos : List VInfo) :
    Nat → Nat → Finset Nat → List (List VInfo)
  | i, remaining + 1, used =>
    match infos[i]? with
    | some x =>
      if i ∈ used then outerLoop similar infos (i + 1) remaining used
      else
        let r := scanFrom similar infos x.hash (i + 1)
          (infos.length - (i + 1)) (insert i used)
        (x :: r.1) :: outerLoop similar infos (i + 1) remaining r.2
    | none => []
  | _, 0, _ => []

/-- All greedy clusters of the visual phase. -/
def visualClusters (similar : String → String → Bool)
    (infos : List VInfo) : List (List VInfo) :=
  outerLoop similar infos 0 infos.length ∅

/-- The groups of ≥ 2 of the visual phase, sorted
best-quality-first. -/
def visualGroups (similar : String → String → Bool)
    (infos : List VInfo) : List (List VInfo) :=
  (visualClusters similar infos).filterMap fun g =>
    if g.length < 2 then none
    else some (List.insertionSort vQualityRel g)

/-- `removeVisualDuplicates(imageFiles)` (lines 188–263), parameterised
by the similarity predicate `areVisuallySimular` imported from
`utils/file-utils.ts`. -/
def removeVisualDuplicates (similar : String → String → Bool)
    (fs : FS) (paths : List String) : Nat × FS :=
  let infos := buildVInfos fs paths
  let toRemove := (visualGroups similar infos).flatMap (·.drop 1)
  (toRemove.length, unlinkAll fs (toRemove.map (·.path)))

/-- `VisualDeduplicator.deduplicate(outputDir, dryRun)` (lines 18–92):
dry-run returns 0 immediately (before any scanning or logging); fewer
than two images is a no-op; otherwise the three phases run in sequence,
re-scanning the directory between phases. -/
def deduplicate (similar : String → String → Bool) (fs : FS)
    (dryRun : Bool) : Nat × FS :=
  if dryRun then (0, fs)
  else
    let imageFiles := findImageFiles fs
    if imageFiles.length < 2 then (0, fs)
    else
      let imageInfos := buildImageInfos fs imageFiles
      let r1 := removeFilenameDuplicates imageInfos fs
      let remainingFiles := findImageFiles r1.2
      let remainingInfos := remainingFiles.filterMap fun p =>
        imageInfos.find? (fun i => i.path = p)
      let r2 := removeContentDuplicates remainingInfos r1.2
      let stillRemaining := findImageFiles r2.2
      let r3 := removeVisualDuplicates similar r2.2 stillRemaining
      (r1.1 + r2.1 + r3.1, r3.2)

/-! ## Spec-modelled similarity primitives and clustering -/

/-- Modelled from the spec: the glossary defines hamming distance as
"the count of differing bits between two equal-length codes"; for
unequal lengths the surplus positions all count. -/
def hammingDistance (a b : String) : Nat :=
  (List.zipWith (fun x y => if x = y then 0 else 1) a.toList b.toList).sum
    + (max a.length b.length - min a.length b.length)

/-- Modelled from the spec: `areVisuallySimular` from
`utils/file-utils.ts` is not under `src/`; §4.4 C says two hashes match
when they are "within a fixed hamming-distance threshold", the
threshold being an implementation parameter (§9). -/
def areVisuallySimular (threshold : Nat) (a b : String) : Bool :=
  hammingDistance a b ≤ threshold

/-- Modelled from the spec (§4.4 C, also the wording of the visual
clustering claim): iterate files in a fixed order; each not-yet-assigned
file seeds a new cluster, taking every later not-yet-assigned file whose
hash is similar to the seed's. -/
def specGreedyFuel (similar : String → String → Bool) :
    Nat → List VInfo → List (List VInfo)
  | _, [] => []
  | 0, _ :: _ => []
  | fuel + 1, x :: rest =>
    (x :: rest.filter (fun y => similar x.hash y.hash)) ::
      specGreedyFuel similar fuel
        (rest.filter (fun y => ¬ similar x.hash y.hash))

def specGreedyClusters (similar : String → String → Bool)
    (l : List VInfo) : List (List VInfo) :=
  specGreedyFuel similar l.length l

/-- Abbreviations for the marked state and prepared filesystem of the
main path. -/
def pdMarked (st : CrawlState) (url : String) : CrawlState :=
  { st with downloadedUrls := insert url st.downloadedUrls }

def pdDir (cfg : Config) (prims : UrlPrims) (url : String) : String :=
  cfg.outputDir ++ "/" ++ prims.getDomain url

def pdPath0 (cfg : Config) (prims : UrlPrims) (url : String) : String :=
  pdDir cfg prims url ++ "/" ++ prims.getFilenameFromUrl url

-- Concrete fixtures for witnesses and counterexamples.
def exData600 : FileData := ⟨100, "hash1", some "v1", some (600, 400)⟩

def exDataNoDims : FileData := ⟨100, "hash2", some "v2", none⟩

def exRespOk (d : FileData) : RespEnv := fun _ => some ⟨200, none, .complete d⟩

def exEnvOk (d : FileData) : Nat → RespEnv := fun _ => exRespOk d

def exCfg : Config := ⟨"out", false, false, 3, true, 800, 0, 0⟩

def exCfgDry : Config := ⟨"out", false, true, 3, true, 800, 0, 0⟩

def exPrims : UrlPrims := ⟨fun _ => "ex.com", fun _ => "a.png"⟩

def exState : CrawlState := ⟨∅, {"ex.com"}, ∅, ∅⟩

def exFS : FS := ⟨[], ∅⟩

def exStateNone : CrawlState := ⟨∅, ∅, ∅, ∅⟩

/-! ### C7: retry and redirect lemmas -/

def emptyFS : FS := ⟨[], ∅⟩

/-- Whether attempt number `k` would succeed: `downloadFile`'s boolean
result, which is independent of the filesystem it starts from. -/
def succeedsAt (env : Nat → RespEnv) (fuel : Nat) (url path : String)
    (k : Nat) : Bool :=
  (downloadFile (env k) fuel url path emptyFS).1

def exRespFail : RespEnv := fun _ => some ⟨500, none, .streamError ⟨0, "junk", none, none⟩⟩

def exRespRedir : RespEnv := fun u =>
  if u = "u1" then some ⟨301, some "u2", .streamError ⟨0, "x", none, none⟩⟩
  else some ⟨200, none, .complete exData600⟩

def exEnvMix : Nat → RespEnv := fun k => if k = 0 then exRespFail else exRespRedir

/-! ### C3: crawl lemmas -/

/-- The induction invariant for one recursion level of the crawler. -/
def CrawlSpec (env : PageEnv) (d : Nat)
    (f : String → Finset String → CrawlRes) : Prop :=
  ∀ url vis,
    (f url vis).rendered.Nodup ∧
    (∀ u ∈ (f url vis).rendered, u ∉ vis) ∧
    (∀ u, u ∈ (f url vis).visited ↔ u ∈ vis ∨ u ∈ (f url vis).rendered) ∧
    (∀ u ∈ (f url vis).rendered, HopsLe env d url u)

def exPages : PageEnv := fun u =>
  if u = "a" then some ⟨["m1"], ["b", "a"]⟩
  else if u = "b" then some ⟨["m2"], []⟩
  else none

/-! ### C8: greedy clustering equivalence -/

/-- The not-yet-assigned images from index `j` on (specification-side
view of the `used` index set). -/
def remFrom (infos : List VInfo) : Nat → Nat → Finset Nat → List VInfo
  | j, rem + 1, used =>
    match infos[j]? with
    | some y =>
      if j ∈ used then remFrom infos (j + 1) rem used
      else y :: remFrom infos (j + 1) rem used
    | none => []
  | _, 0, _ => []

def exVFS1 : FS := ⟨[("d/a.jpg", ⟨10, "ca", some "0", some (10, 10)⟩),
  ("d/b.jpg", ⟨10, "cb", some "1", some (10, 10)⟩)], ∅⟩

def exVFS2 : FS := ⟨[("d/a.jpg", ⟨10, "ca", some "h", some (10, 10)⟩),
  ("d/bb.jpg", ⟨20, "cb", some "h", some (20, 10)⟩)], ∅⟩

def exVInfos2 : List VInfo := buildVInfos exVFS2 (findImageFiles exVFS2)

def exG0 : List VInfo :=
  [⟨"d/bb.jpg", "h", 200, 20⟩, ⟨"d/a.jpg", "h", 100, 10⟩]

def exFIa : FileInfo := mkFileInfo "d/a.jpg" ⟨10, "ca", some "h", some (10, 10)⟩

def exFIb : FileInfo := mkFileInfo "d/bb.jpg" ⟨20, "cb", some "h", some (20, 10)⟩

def exDG0 : DuplicateGroup := ⟨exFIb, [exFIa], .visual⟩

def exScanFS : FS := ⟨[("d/a.jpg", ⟨10, "h1", some "AA", some (10, 10)⟩),
  ("d/ab.jpg", ⟨10, "h1", some "AB", some (10, 10)⟩)], ∅⟩

def exDGI : DuplicateGroup :=
  ⟨mkFileInfo "d/a.jpg" ⟨10, "h1", some "AA", some (10, 10)⟩,
    [mkFileInfo "d/ab.jpg" ⟨10, "h1", some "AB", some (10, 10)⟩], .identical⟩

def exI1 : IInfo := ⟨"d/b_1.jpg", "b_1.jpg", "b", ".jpg", 200, 20⟩

def exI2 : IInfo := ⟨"d/b_2.jpg", "b_2.jpg", "b", ".jpg", 100, 10⟩

def exIInfos : List IInfo := [exI1, exI2]

def exFnFS : FS := ⟨[("d/b_1.jpg", ⟨20, "x", none, none⟩),
  ("d/b_2.jpg", ⟨10, "y", none, none⟩)], ∅⟩

/-! ## Theorems -/

theorem lookupFile_eraseKey_self (p : String) :
    ∀ l : List (String × FileData), lookupFile (eraseKey p l) p = none := by
  intro l
  induction l with
  | nil => simp [eraseKey, lookupFile]
  | cons e rest ih =>
    by_cases h : e.1 = p
    · simpa [eraseKey, h] using ih
    · simpa [eraseKey, h, lookupFile] using ih

theorem lookupFile_eraseKey_ne {p q : String} (h : q ≠ p) :
    ∀ l : List (String × FileData),
      lookupFile (eraseKey p l) q = lookupFile l q := by
  intro l
  have hpq : p ≠ q := fun hpq => h hpq.symm
  induction l with
  | nil => simp [eraseKey]
  | cons e rest ih =>
    by_cases he : e.1 = p
    · simp [eraseKey, he, lookupFile, hpq, ih]
    · by_cases heq : e.1 = q
      · simp [eraseKey, he, lookupFile, heq, h]
      · simp [eraseKey, he, lookupFile, heq, ih, h]

theorem lookupFile_append (l₁ l₂ : List (String × FileData)) (q : String) :
    lookupFile (l₁ ++ l₂) q =
      (lookupFile l₁ q).or (lookupFile l₂ q) := by
  induction l₁ with
  | nil => simp [lookupFile]
  | cons e rest ih =>
    by_cases h : e.1 = q
    · simp [lookupFile, h]
    · simp [lookupFile, h, ih]

@[simp] theorem FS.lookup_unlink (fs : FS) (p : String) :
    (fs.unlink p).lookup p = none :=
  lookupFile_eraseKey_self p fs.files

theorem FS.lookup_unlink_ne (fs : FS) {p q : String} (h : q ≠ p) :
    (fs.unlink p).lookup q = fs.lookup q :=
  lookupFile_eraseKey_ne h fs.files

@[simp] theorem FS.unlink_dirs (fs : FS) (p : String) :
    (fs.unlink p).dirs = fs.dirs := rfl

@[simp] theorem FS.write_lookup (fs : FS) (p : String) (d : FileData) :
    (fs.write p d).lookup p = some d := by
  show lookupFile (eraseKey p fs.files ++ [(p, d)]) p = some d
  rw [lookupFile_append, lookupFile_eraseKey_self]
  simp [lookupFile]

theorem FS.write_lookup_ne (fs : FS) {p q : String} (h : q ≠ p) (d : FileData) :
    (fs.write p d).lookup q = fs.lookup q := by
  have hpq : p ≠ q := fun hpq => h hpq.symm
  show lookupFile (eraseKey p fs.files ++ [(p, d)]) q = _
  rw [lookupFile_append, lookupFile_eraseKey_ne h]
  cases hq : lookupFile fs.files q with
  | none => simp [FS.lookup, hq, lookupFile, hpq]
  | some d' => simp [FS.lookup, hq]

@[simp] theorem FS.write_dirs (fs : FS) (p : String) (d : FileData) :
    (fs.write p d).dirs = fs.dirs := rfl

@[simp] theorem FS.mkdir_files (fs : FS) (p : String) :
    (fs.mkdir p).files = fs.files := rfl

/-! ### Branch lemmas for `processDownload` -/

theorem pd_already {cfg prims env fuel st fs url}
    (h : url ∈ st.downloadedUrls) :
    processDownload cfg prims env fuel st fs url =
      ⟨.skippedAlready, st, fs, none⟩ := by
  simp [processDownload, h]

theorem pd_domain {cfg prims env fuel st fs url}
    (h1 : url ∉ st.downloadedUrls)
    (h2 : prims.getDomain url ∉ st.allowedDomains) :
    processDownload cfg prims env fuel st fs url =
      ⟨.skippedDomain, st, fs, none⟩ := by
  simp [processDownload, h1, h2]

theorem pd_resume {cfg prims env fuel st fs url}
    (h1 : url ∉ st.downloadedUrls)
    (h2 : prims.getDomain url ∈ st.allowedDomains)
    (h3 : resumeHit cfg (fs.mkdir (pdDir cfg prims url)) (pdPath0 cfg prims url)) :
    processDownload cfg prims env fuel st fs url =
      ⟨.skippedResume, pdMarked st url, fs.mkdir (pdDir cfg prims url),
        some (pdPath0 cfg prims url)⟩ := by
  simp only [pdDir, pdPath0] at h3
  simp [processDownload, h1, h2, h3, pdMarked, pdDir, pdPath0]

theorem pd_dryRun {cfg prims env fuel st fs url}
    (h1 : url ∉ st.downloadedUrls)
    (h2 : prims.getDomain url ∈ st.allowedDomains)
    (h3 : ¬ resumeHit cfg (fs.mkdir (pdDir cfg prims url)) (pdPath0 cfg prims url))
    (h4 : cfg.dryRun) :
    processDownload cfg prims env fuel st fs url =
      ⟨.dryRunReport, pdMarked st url, fs.mkdir (pdDir cfg prims url),
        some (ensureUniqueFilepath (fs.mkdir (pdDir cfg prims url))
          (pdPath0 cfg prims url))⟩ := by
  simp only [pdDir, pdPath0] at h3
  simp [processDownload, h1, h2, h3, h4, pdMarked, pdDir, pdPath0]

theorem pd_main {cfg prims env fuel st fs url}
    (h1 : url ∉ st.downloadedUrls)
    (h2 : prims.getDomain url ∈ st.allowedDomains)
    (h3 : ¬ resumeHit cfg (fs.mkdir (pdDir cfg prims url)) (pdPath0 cfg prims url))
    (h4 : ¬ cfg.dryRun) :
    processDownload cfg prims env fuel st fs url =
      pdFetchPhase cfg env fuel (pdMarked st url)
        (fs.mkdir (pdDir cfg prims url)) url
        (ensureUniqueFilepath (fs.mkdir (pdDir cfg prims url))
          (pdPath0 cfg prims url)) := by
  simp only [pdDir, pdPath0] at h3
  simp [processDownload, h1, h2, h3, h4, pdMarked, pdDir, pdPath0]

/-! ### `dlFinish` and `pdFetchPhase` facts -/

theorem dlFinish_target (cfg st fs p d) :
    (dlFinish cfg st fs p d).target = some p := by
  unfold dlFinish
  by_cases h1 : cfg.skipDuplicates ∧ d.hash ∈ st.contentHashes
  · simp [h1]
  · by_cases h2 : extLowerOf p ∈ dlImageExtensions
    · cases hd : d.dims with
      | none => simp [h1, h2, hd]
      | some wh =>
        by_cases h3 : (cfg.minWidth > 0 ∧ wh.1 < cfg.minWidth) ∨
            (cfg.minHeight > 0 ∧ wh.2 < cfg.minHeight)
        · simp [h1, h2, hd, h3]
        · simp [h1, h2, hd, h3]
    · simp [h1, h2]

theorem dlFinish_outcome_rejected (cfg st fs p d)
    (h : (dlFinish cfg st fs p d).outcome = .dupContent ∨
         (dlFinish cfg st fs p d).outcome = .tooSmall) :
    (dlFinish cfg st fs p d).fs = fs.unlink p := by
  unfold dlFinish at *
  by_cases h1 : cfg.skipDuplicates ∧ d.hash ∈ st.contentHashes
  · simp [h1]
  · by_cases h2 : extLowerOf p ∈ dlImageExtensions
    · cases hd : d.dims with
      | none => simp [h1, h2, hd] at h
      | some wh =>
        by_cases h3 : (cfg.minWidth > 0 ∧ wh.1 < cfg.minWidth) ∨
            (cfg.minHeight > 0 ∧ wh.2 < cfg.minHeight)
        · simp [h1, h2, hd, h3]
        · simp [h1, h2, hd, h3] at h
    · simp [h1, h2] at h

theorem dlFinish_outcome_success (cfg st fs p d)
    (h : (dlFinish cfg st fs p d).outcome = .success) :
    (dlFinish cfg st fs p d).fs = fs := by
  unfold dlFinish at *
  by_cases h1 : cfg.skipDuplicates ∧ d.hash ∈ st.contentHashes
  · simp [h1] at h
  · by_cases h2 : extLowerOf p ∈ dlImageExtensions
    · cases hd : d.dims with
      | none => simp [h1, h2, hd]
      | some wh =>
        by_cases h3 : (cfg.minWidth > 0 ∧ wh.1 < cfg.minWidth) ∨
            (cfg.minHeight > 0 ∧ wh.2 < cfg.minHeight)
        · simp [h1, h2, hd, h3] at h
        · simp [h1, h2, hd, h3]
    · simp [h1, h2]

theorem dlFinish_outcome_cases (cfg st fs p d) :
    (dlFinish cfg st fs p d).outcome = .dupContent ∨
    (dlFinish cfg st fs p d).outcome = .tooSmall ∨
    (dlFinish cfg st fs p d).outcome = .success := by
  unfold dlFinish
  by_cases h1 : cfg.skipDuplicates ∧ d.hash ∈ st.contentHashes
  · simp [h1]
  · by_cases h2 : extLowerOf p ∈ dlImageExtensions
    · cases hd : d.dims with
      | none => simp [h1, h2, hd]
      | some wh =>
        by_cases h3 : (cfg.minWidth > 0 ∧ wh.1 < cfg.minWidth) ∨
            (cfg.minHeight > 0 ∧ wh.2 < cfg.minHeight)
        · simp [h1, h2, hd, h3]
        · simp [h1, h2, hd, h3]
    · simp [h1, h2]

theorem pdFetchPhase_target (cfg env fuel st fs url p) :
    (pdFetchPhase cfg env fuel st fs url p).target = some p := by
  unfold pdFetchPhase
  by_cases hr : (tryDownload env fuel url p cfg.maxRetries fs).1
  · cases hl : (tryDownload env fuel url p cfg.maxRetries fs).2.1.lookup p with
    | none => simp [hr, hl]
    | some stats =>
      by_cases hz : stats.size = 0
      · simp [hr, hl, hz]
      · simp [hr, hl, hz, dlFinish_target]
  · simp [hr]

theorem pdFetchPhase_eq_failed {cfg env fuel st fs url p}
    (hr : ¬ (tryDownload env fuel url p cfg.maxRetries fs).1) :
    pdFetchPhase cfg env fuel st fs url p =
      ⟨.failedRetries, st,
        (tryDownload env fuel url p cfg.maxRetries fs).2.1.unlink p, some p⟩ := by
  simp [pdFetchPhase, hr]

theorem pdFetchPhase_eq_notFound {cfg env fuel st fs url p}
    (hr : (tryDownload env fuel url p cfg.maxRetries fs).1)
    (hl : (tryDownload env fuel url p cfg.maxRetries fs).2.1.lookup p = none) :
    pdFetchPhase cfg env fuel st fs url p =
      ⟨.fileNotFound, st, (tryDownload env fuel url p cfg.maxRetries fs).2.1,
        some p⟩ := by
  simp [pdFetchPhase, hr, hl]

theorem pdFetchPhase_eq_empty {cfg env fuel st fs url p stats}
    (hr : (tryDownload env fuel url p cfg.maxRetries fs).1)
    (hl : (tryDownload env fuel url p cfg.maxRetries fs).2.1.lookup p = some stats)
    (hz : stats.size = 0) :
    pdFetchPhase cfg env fuel st fs url p =
      ⟨.emptyFile, st,
        (tryDownload env fuel url p cfg.maxRetries fs).2.1.unlink p, some p⟩ := by
  simp [pdFetchPhase, hr, hl, hz]

theorem pdFetchPhase_eq_finish {cfg env fuel st fs url p stats}
    (hr : (tryDownload env fuel url p cfg.maxRetries fs).1)
    (hl : (tryDownload env fuel url p cfg.maxRetries fs).2.1.lookup p = some stats)
    (hz : ¬ stats.size = 0) :
    pdFetchPhase cfg env fuel st fs url p =
      dlFinish cfg st (tryDownload env fuel url p cfg.maxRetries fs).2.1 p stats := by
  simp [pdFetchPhase, hr, hl, hz]

theorem pdFetchPhase_rejected (cfg env fuel st fs url p)
    (h : (pdFetchPhase cfg env fuel st fs url p).outcome = .failedRetries ∨
         (pdFetchPhase cfg env fuel st fs url p).outcome = .emptyFile ∨
         (pdFetchPhase cfg env fuel st fs url p).outcome = .dupContent ∨
         (pdFetchPhase cfg env fuel st fs url p).outcome = .tooSmall) :
    (pdFetchPhase cfg env fuel st fs url p).fs.lookup p = none := by
  by_cases hr : (tryDownload env fuel url p cfg.maxRetries fs).1
  · cases hl : (tryDownload env fuel url p cfg.maxRetries fs).2.1.lookup p with
    | none => rw [pdFetchPhase_eq_notFound hr hl] at h; rcases h with h | h | h | h <;> cases h
    | some stats =>
      by_cases hz : stats.size = 0
      · rw [pdFetchPhase_eq_empty hr hl hz]; simp
      · rw [pdFetchPhase_eq_finish hr hl hz] at h ⊢
        rcases dlFinish_outcome_cases cfg st
            (tryDownload env fuel url p cfg.maxRetries fs).2.1 p stats with hc | hc | hc
        · rw [dlFinish_outcome_rejected _ _ _ _ _ (Or.inl hc)]; simp
        · rw [dlFinish_outcome_rejected _ _ _ _ _ (Or.inr hc)]; simp
        · rw [hc] at h; rcases h with h | h | h | h <;> cases h
  · rw [pdFetchPhase_eq_failed hr]; simp

theorem dlFinish_hashes (cfg st fs p d) :
    (dlFinish cfg st fs p d).state.contentHashes =
      if cfg.skipDuplicates ∧ d.hash ∉ st.contentHashes then
        insert d.hash st.contentHashes
      else st.contentHashes := by
  unfold dlFinish
  by_cases h1 : cfg.skipDuplicates ∧ d.hash ∈ st.contentHashes
  · simp [h1, h1.2]
  · by_cases hs : cfg.skipDuplicates
    · have hnm : d.hash ∉ st.contentHashes := fun hm => h1 ⟨hs, hm⟩
      by_cases h2 : extLowerOf p ∈ dlImageExtensions
      · cases hd : d.dims with
        | none => simp [h1, hs, hnm, h2, hd]
        | some wh =>
          by_cases h3 : (cfg.minWidth > 0 ∧ wh.1 < cfg.minWidth) ∨
              (cfg.minHeight > 0 ∧ wh.2 < cfg.minHeight)
          · simp [h1, hs, hnm, h2, hd, h3]
          · simp [h1, hs, hnm, h2, hd, h3]
      · simp [h1, hs, hnm, h2]
    · by_cases h2 : extLowerOf p ∈ dlImageExtensions
      · cases hd : d.dims with
        | none => simp [h1, hs, h2, hd]
        | some wh =>
          by_cases h3 : (cfg.minWidth > 0 ∧ wh.1 < cfg.minWidth) ∨
              (cfg.minHeight > 0 ∧ wh.2 < cfg.minHeight)
          · simp [h1, hs, h2, hd, h3]
          · simp [h1, hs, h2, hd, h3]
      · simp [h1, hs, h2]

theorem dlFinish_state_frame (cfg st fs p d) :
    (dlFinish cfg st fs p d).state.downloadedUrls = st.downloadedUrls ∧
    (dlFinish cfg st fs p d).state.allowedDomains = st.allowedDomains ∧
    (dlFinish cfg st fs p d).state.visitedUrls = st.visitedUrls := by
  unfold dlFinish
  by_cases h1 : cfg.skipDuplicates ∧ d.hash ∈ st.contentHashes
  · simp [h1]
  · by_cases hs : cfg.skipDuplicates
    · have hnm : d.hash ∉ st.contentHashes := fun hm => h1 ⟨hs, hm⟩
      by_cases h2 : extLowerOf p ∈ dlImageExtensions
      · cases hd : d.dims with
        | none => simp [h1, hs, hnm, h2, hd]
        | some wh =>
          by_cases h3 : (cfg.minWidth > 0 ∧ wh.1 < cfg.minWidth) ∨
              (cfg.minHeight > 0 ∧ wh.2 < cfg.minHeight)
          · simp [h1, hs, hnm, h2, hd, h3]
          · simp [h1, hs, hnm, h2, hd, h3]
      · simp [h1, hs, hnm, h2]
    · by_cases h2 : extLowerOf p ∈ dlImageExtensions
      · cases hd : d.dims with
        | none => simp [h1, hs, h2, hd]
        | some wh =>
          by_cases h3 : (cfg.minWidth > 0 ∧ wh.1 < cfg.minWidth) ∨
              (cfg.minHeight > 0 ∧ wh.2 < cfg.minHeight)
          · simp [h1, hs, h2, hd, h3]
          · simp [h1, hs, h2, hd, h3]
      · simp [h1, hs, h2]

/-- C1: whenever `processDownload` ends in a rejecting outcome — all
retries failed, the fetched file is empty, its content hash is a
duplicate, or the image is below the configured minimum dimensions —
the partially downloaded target file has been deleted: looking up the
target path in the resulting filesystem yields nothing. -/
theorem C1_rejection_deletes (cfg : Config) (prims : UrlPrims)
    (env : Nat → RespEnv) (fuel : Nat) (st : CrawlState) (fs : FS) (url : String)
    (h : (processDownload cfg prims env fuel st fs url).outcome = .failedRetries ∨
         (processDownload cfg prims env fuel st fs url).outcome = .emptyFile ∨
         (processDownload cfg prims env fuel st fs url).outcome = .dupContent ∨
         (processDownload cfg prims env fuel st fs url).outcome = .tooSmall) :
    ∃ p, (processDownload cfg prims env fuel st fs url).target = some p ∧
      (processDownload cfg prims env fuel st fs url).fs.lookup p = none := by
  by_cases h1 : url ∈ st.downloadedUrls
  · rw [pd_already h1] at h; rcases h with h | h | h | h <;> cases h
  by_cases h2 : prims.getDomain url ∈ st.allowedDomains
  case neg => rw [pd_domain h1 h2] at h; rcases h with h | h | h | h <;> cases h
  by_cases h3 : resumeHit cfg (fs.mkdir (pdDir cfg prims url)) (pdPath0 cfg prims url)
  · rw [pd_resume h1 h2 h3] at h; rcases h with h | h | h | h <;> cases h
  by_cases h4 : cfg.dryRun
  · rw [pd_dryRun h1 h2 h3 h4] at h; rcases h with h | h | h | h <;> cases h
  rw [pd_main h1 h2 h3 h4] at h ⊢
  exact ⟨_, pdFetchPhase_target _ _ _ _ _ _ _, pdFetchPhase_rejected _ _ _ _ _ _ _ h⟩

/-- C9: when minimum dimensions are configured for the download filter
but `getImageDimensions` returns `null` for an image file, the
dimension check is skipped entirely: the download completes with
outcome `success` and the file stays on disk. -/
theorem C9_dims_null_kept (cfg : Config) (st : CrawlState) (fs : FS)
    (p : String) (d : FileData)
    (_hmin : 0 < cfg.minWidth ∨ 0 < cfg.minHeight)
    (himg : extLowerOf p ∈ dlImageExtensions)
    (hdims : d.dims = none)
    (hnodup : ¬ (cfg.skipDuplicates ∧ d.hash ∈ st.contentHashes)) :
    (dlFinish cfg st fs p d).outcome = .success ∧
    (dlFinish cfg st fs p d).fs = fs := by
  unfold dlFinish
  simp [hnodup, himg, hdims]

theorem pdFetchPhase_state_frame (cfg env fuel st fs url p) :
    (pdFetchPhase cfg env fuel st fs url p).state.downloadedUrls = st.downloadedUrls ∧
    (pdFetchPhase cfg env fuel st fs url p).state.allowedDomains = st.allowedDomains ∧
    (pdFetchPhase cfg env fuel st fs url p).state.visitedUrls = st.visitedUrls := by
  by_cases hr : (tryDownload env fuel url p cfg.maxRetries fs).1
  · cases hl : (tryDownload env fuel url p cfg.maxRetries fs).2.1.lookup p with
    | none => rw [pdFetchPhase_eq_notFound hr hl]; exact ⟨rfl, rfl, rfl⟩
    | some stats =>
      by_cases hz : stats.size = 0
      · rw [pdFetchPhase_eq_empty hr hl hz]; exact ⟨rfl, rfl, rfl⟩
      · rw [pdFetchPhase_eq_finish hr hl hz]; exact dlFinish_state_frame _ _ _ _ _
  · rw [pdFetchPhase_eq_failed hr]; exact ⟨rfl, rfl, rfl⟩

theorem dlFinish_outcome_dup_iff (cfg st fs p d) :
    (dlFinish cfg st fs p d).outcome = .dupContent ↔
      (cfg.skipDuplicates ∧ d.hash ∈ st.contentHashes) := by
  unfold dlFinish
  by_cases h1 : cfg.skipDuplicates ∧ d.hash ∈ st.contentHashes
  · simp [h1]
  · by_cases h2 : extLowerOf p ∈ dlImageExtensions
    · cases hd : d.dims with
      | none => simp [h1, h2, hd]
      | some wh =>
        by_cases h3 : (cfg.minWidth > 0 ∧ wh.1 < cfg.minWidth) ∨
            (cfg.minHeight > 0 ∧ wh.2 < cfg.minHeight)
        · simp [h1, h2, hd, h3]
        · simp [h1, h2, hd, h3]
    · simp [h1, h2]

theorem pd_allowed_inv (cfg prims env fuel st fs url) :
    (processDownload cfg prims env fuel st fs url).state.allowedDomains =
      st.allowedDomains := by
  by_cases h1 : url ∈ st.downloadedUrls
  · rw [pd_already h1]
  by_cases h2 : prims.getDomain url ∈ st.allowedDomains
  case neg => rw [pd_domain h1 h2]
  by_cases h3 : resumeHit cfg (fs.mkdir (pdDir cfg prims url)) (pdPath0 cfg prims url)
  · rw [pd_resume h1 h2 h3]; rfl
  by_cases h4 : cfg.dryRun
  · rw [pd_dryRun h1 h2 h3 h4]; rfl
  · rw [pd_main h1 h2 h3 h4]
    exact (pdFetchPhase_state_frame _ _ _ _ _ _ _).2.1

theorem pd_marks (cfg prims env fuel st fs url)
    (h1 : url ∉ st.downloadedUrls)
    (h2 : prims.getDomain url ∈ st.allowedDomains) :
    (processDownload cfg prims env fuel st fs url).state.downloadedUrls =
      insert url st.downloadedUrls := by
  by_cases h3 : resumeHit cfg (fs.mkdir (pdDir cfg prims url)) (pdPath0 cfg prims url)
  · rw [pd_resume h1 h2 h3]; rfl
  by_cases h4 : cfg.dryRun
  · rw [pd_dryRun h1 h2 h3 h4]; rfl
  · rw [pd_main h1 h2 h3 h4]
    exact (pdFetchPhase_state_frame _ _ _ _ _ _ _).1

/-- C2 (amended): the already-seen check returns with no effect; a URL
with an allowed domain is marked before any further step; a URL with a
disallowed domain returns unmarked with no effect; and re-processing the
same URL afterwards never touches the filesystem again. -/
theorem C2_downloadedUrls_amended (cfg : Config) (prims : UrlPrims)
    (env : Nat → RespEnv) (fuel : Nat) (st : CrawlState) (fs : FS) (url : String) :
    (url ∈ st.downloadedUrls →
      processDownload cfg prims env fuel st fs url = ⟨.skippedAlready, st, fs, none⟩) ∧
    (url ∉ st.downloadedUrls → prims.getDomain url ∉ st.allowedDomains →
      processDownload cfg prims env fuel st fs url = ⟨.skippedDomain, st, fs, none⟩) ∧
    (url ∉ st.downloadedUrls → prims.getDomain url ∈ st.allowedDomains →
      (processDownload cfg prims env fuel st fs url).state.downloadedUrls =
        insert url st.downloadedUrls) ∧
    (∀ env2 fuel2,
      (processDownload cfg prims env2 fuel2
          (processDownload cfg prims env fuel st fs url).state
          (processDownload cfg prims env fuel st fs url).fs url).fs =
        (processDownload cfg prims env fuel st fs url).fs) := by
  refine ⟨fun h => pd_already h, fun h1 h2 => pd_domain h1 h2,
    fun h1 h2 => pd_marks cfg prims env fuel st fs url h1 h2, fun env2 fuel2 => ?_⟩
  by_cases h1 : url ∈ st.downloadedUrls
  · rw [pd_already h1, pd_already h1]
  by_cases h2 : prims.getDomain url ∈ st.allowedDomains
  · have hmem : url ∈ (processDownload cfg prims env fuel st fs url).state.downloadedUrls := by
      rw [pd_marks cfg prims env fuel st fs url h1 h2]
      exact Finset.mem_insert_self url _
    rw [pd_already hmem]
  · rw [pd_domain h1 h2]
    rw [pd_domain h1 (by simpa using h2)]

theorem pdFetchPhase_hashes (cfg env fuel st fs url p) :
    st.contentHashes ⊆ (pdFetchPhase cfg env fuel st fs url p).state.contentHashes ∧
    (¬ cfg.skipDuplicates →
      (pdFetchPhase cfg env fuel st fs url p).state.contentHashes = st.contentHashes) ∧
    (cfg.skipDuplicates →
      ((pdFetchPhase cfg env fuel st fs url p).outcome = .success ∨
       (pdFetchPhase cfg env fuel st fs url p).outcome = .tooSmall) →
      ∃ hh, hh ∉ st.contentHashes ∧
        (pdFetchPhase cfg env fuel st fs url p).state.contentHashes =
          insert hh st.contentHashes) ∧
    ((pdFetchPhase cfg env fuel st fs url p).outcome ≠ .success →
     (pdFetchPhase cfg env fuel st fs url p).outcome ≠ .tooSmall →
      (pdFetchPhase cfg env fuel st fs url p).state.contentHashes = st.contentHashes) ∧
    (cfg.skipDuplicates → (pdFetchPhase cfg env fuel st fs url p).outcome = .success →
      ∃ d, (pdFetchPhase cfg env fuel st fs url p).fs.lookup p = some d ∧
        d.hash ∉ st.contentHashes ∧
        (pdFetchPhase cfg env fuel st fs url p).state.contentHashes =
          insert d.hash st.contentHashes) := by
  by_cases hr : (tryDownload env fuel url p cfg.maxRetries fs).1
  · cases hl : (tryDownload env fuel url p cfg.maxRetries fs).2.1.lookup p with
    | none =>
      rw [pdFetchPhase_eq_notFound hr hl]
      exact ⟨Finset.Subset.refl _, fun _ => rfl,
        (fun _ h => by rcases h with h | h <;> cases h),
        fun _ _ => rfl, (fun _ h => by cases h)⟩
    | some stats =>
      by_cases hz : stats.size = 0
      · rw [pdFetchPhase_eq_empty hr hl hz]
        exact ⟨Finset.Subset.refl _, fun _ => rfl,
          (fun _ h => by rcases h with h | h <;> cases h),
          fun _ _ => rfl, (fun _ h => by cases h)⟩
      · rw [pdFetchPhase_eq_finish hr hl hz]
        have hh := dlFinish_hashes cfg st (tryDownload env fuel url p cfg.maxRetries fs).2.1 p stats
        have hdup := dlFinish_outcome_dup_iff cfg st (tryDownload env fuel url p cfg.maxRetries fs).2.1 p stats
        have hcases := dlFinish_outcome_cases cfg st (tryDownload env fuel url p cfg.maxRetries fs).2.1 p stats
        refine ⟨?_, ?_, ?_, ?_, ?_⟩
        · rw [hh]
          by_cases hc : cfg.skipDuplicates ∧ stats.hash ∉ st.contentHashes
          · rw [if_pos hc]; exact Finset.subset_insert _ _
          · rw [if_neg hc]
        · intro hs
          rw [hh, if_neg (fun hc => hs hc.1)]
        · intro hs houtcome
          have hnm : stats.hash ∉ st.contentHashes := by
            intro hm
            have : (dlFinish cfg st (tryDownload env fuel url p cfg.maxRetries fs).2.1 p stats).outcome = .dupContent :=
              hdup.mpr ⟨hs, hm⟩
            rcases houtcome with h | h <;> rw [this] at h <;> cases h
          exact ⟨stats.hash, hnm, by rw [hh, if_pos ⟨hs, hnm⟩]⟩
        · intro hns hnt
          rw [hh]
          rcases hcases with hc | hc | hc
          · rw [if_neg]
            intro hcc
            exact absurd (hdup.mp hc).2 hcc.2
          · exact absurd hc hnt
          · exact absurd hc hns
        · intro hs hsucc
          have hnm : stats.hash ∉ st.contentHashes := by
            intro hm
            have hd := hdup.mpr ⟨hs, hm⟩
            rw [hsucc] at hd; cases hd
          refine ⟨stats, ?_, hnm, by rw [hh, if_pos ⟨hs, hnm⟩]⟩
          rw [dlFinish_outcome_success _ _ _ _ _ hsucc]
          exact hl
  · rw [pdFetchPhase_eq_failed hr]
    exact ⟨Finset.Subset.refl _, fun _ => rfl,
      (fun _ h => by rcases h with h | h <;> cases h),
      fun _ _ => rfl, (fun _ h => by cases h)⟩

/-- C5 (amended): during one `processDownload` call, `contentHashes`
grows monotonically; it changes only when content dedup is enabled and
the download reaches the content-dedup step (outcome `success` or
`tooSmall`), in which case exactly the new file's hash is inserted; at
`success` the inserted hash is the hash of the file kept on disk.  (The
hash is also inserted at `tooSmall`, whose file is deleted — this is the
deviation from the claim as stated.) -/
theorem C5_contentHashes_amended (cfg : Config) (prims : UrlPrims)
    (env : Nat → RespEnv) (fuel : Nat) (st : CrawlState) (fs : FS) (url : String) :
    st.contentHashes ⊆ (processDownload cfg prims env fuel st fs url).state.contentHashes ∧
    (¬ cfg.skipDuplicates →
      (processDownload cfg prims env fuel st fs url).state.contentHashes = st.contentHashes) ∧
    (cfg.skipDuplicates →
      ((processDownload cfg prims env fuel st fs url).outcome = .success ∨
       (processDownload cfg prims env fuel st fs url).outcome = .tooSmall) →
      ∃ hh, hh ∉ st.contentHashes ∧
        (processDownload cfg prims env fuel st fs url).state.contentHashes =
          insert hh st.contentHashes) ∧
    ((processDownload cfg prims env fuel st fs url).outcome ≠ .success →
     (processDownload cfg prims env fuel st fs url).outcome ≠ .tooSmall →
      (processDownload cfg prims env fuel st fs url).state.contentHashes = st.contentHashes) ∧
    (cfg.skipDuplicates → (processDownload cfg prims env fuel st fs url).outcome = .success →
      ∃ p d, (processDownload cfg prims env fuel st fs url).target = some p ∧
        (processDownload cfg prims env fuel st fs url).fs.lookup p = some d ∧
        d.hash ∉ st.contentHashes ∧
        (processDownload cfg prims env fuel st fs url).state.contentHashes =
          insert d.hash st.contentHashes) := by
  by_cases h1 : url ∈ st.downloadedUrls
  · rw [pd_already h1]
    exact ⟨Finset.Subset.refl _, fun _ => rfl,
      (fun _ h => by rcases h with h | h <;> cases h),
      fun _ _ => rfl, (fun _ h => by cases h)⟩
  by_cases h2 : prims.getDomain url ∈ st.allowedDomains
  case neg =>
    rw [pd_domain h1 h2]
    exact ⟨Finset.Subset.refl _, fun _ => rfl,
      (fun _ h => by rcases h with h | h <;> cases h),
      fun _ _ => rfl, (fun _ h => by cases h)⟩
  by_cases h3 : resumeHit cfg (fs.mkdir (pdDir cfg prims url)) (pdPath0 cfg prims url)
  · rw [pd_resume h1 h2 h3]
    exact ⟨Finset.Subset.refl _, fun _ => rfl,
      (fun _ h => by rcases h with h | h <;> cases h),
      fun _ _ => rfl, (fun _ h => by cases h)⟩
  by_cases h4 : cfg.dryRun
  · rw [pd_dryRun h1 h2 h3 h4]
    exact ⟨Finset.Subset.refl _, fun _ => rfl,
      (fun _ h => by rcases h with h | h <;> cases h),
      fun _ _ => rfl, (fun _ h => by cases h)⟩
  · rw [pd_main h1 h2 h3 h4]
    have hp := pdFetchPhase_hashes cfg env fuel (pdMarked st url)
      (fs.mkdir (pdDir cfg prims url)) url
      (ensureUniqueFilepath (fs.mkdir (pdDir cfg prims url)) (pdPath0 cfg prims url))
    have hmk : (pdMarked st url).contentHashes = st.contentHashes := rfl
    rw [hmk] at hp
    refine ⟨hp.1, hp.2.1, hp.2.2.1, hp.2.2.2.1, fun hs hsucc => ?_⟩
    obtain ⟨d, hlook, hnm, heq⟩ := hp.2.2.2.2 hs hsucc
    exact ⟨_, d, pdFetchPhase_target _ _ _ _ _ _ _, hlook, hnm, heq⟩

/-- C4 (amended): in dry-run the downloader performs no fetch and
neither writes nor deletes any file, but it does create the domain
directory; the visual deduplicator returns immediately (scanning
nothing, reporting zero); the standalone scanner computes the same
duplicate groups and reports the same byte totals as a real run while
leaving the filesystem untouched. -/
theorem C4_dryRun_amended :
    (∀ (cfg : Config) (prims : UrlPrims) (env : Nat → RespEnv) (fuel : Nat)
        (st : CrawlState) (fs : FS) (url : String), cfg.dryRun →
      (processDownload cfg prims env fuel st fs url).fs.files = fs.files ∧
      fs.dirs ⊆ (processDownload cfg prims env fuel st fs url).fs.dirs) ∧
    (∀ (similar : String → String → Bool) (fs : FS),
      deduplicate similar fs true = (0, fs)) ∧
    (∀ fs : FS,
      (scan fs true).fs = fs ∧
      (scan fs true).groups = (scan fs false).groups ∧
      (scan fs true).found = (scan fs false).found ∧
      (scan fs true).freedBytes = (scan fs false).freedBytes) := by
  refine ⟨fun cfg prims env fuel st fs url h4 => ?_,
    fun similar fs => rfl, fun fs => ⟨rfl, rfl, rfl, rfl⟩⟩
  by_cases h1 : url ∈ st.downloadedUrls
  · rw [pd_already h1]; exact ⟨rfl, Finset.Subset.refl _⟩
  by_cases h2 : prims.getDomain url ∈ st.allowedDomains
  case neg => rw [pd_domain h1 h2]; exact ⟨rfl, Finset.Subset.refl _⟩
  by_cases h3 : resumeHit cfg (fs.mkdir (pdDir cfg prims url)) (pdPath0 cfg prims url)
  · rw [pd_resume h1 h2 h3]
    exact ⟨rfl, Finset.subset_insert _ _⟩
  · rw [pd_dryRun h1 h2 h3 h4]
    exact ⟨rfl, Finset.subset_insert _ _⟩

/-- C2 counterexample to the original claim: a URL whose host is not in
`allowedDomains` is rejected *without* ever being added to
`downloadedUrls`, because the domain check precedes the mark. -/
theorem C2_mark_counterexample :
    "u1" ∉ exStateNone.downloadedUrls ∧
    (processDownload exCfg exPrims (exEnvOk exData600) 5 exStateNone exFS "u1").outcome =
      .skippedDomain ∧
    "u1" ∉ (processDownload exCfg exPrims (exEnvOk exData600) 5 exStateNone exFS "u1").state.downloadedUrls := by
  decide

/-- C4 counterexample to the original claim: with dry-run enabled the
downloader still creates the per-domain output directory, because
`fs.mkdir` runs before the dry-run check. -/
theorem C4_dryRun_counterexample :
    exCfgDry.dryRun = true ∧
    "out/ex.com" ∉ exFS.dirs ∧
    "out/ex.com" ∈ (processDownload exCfgDry exPrims (exEnvOk exData600) 5 exState exFS "u1").fs.dirs := by
  decide

/-- C5 counterexample to the original claim: a download rejected by the
dimension filter (outcome `tooSmall`, file deleted) nevertheless leaves
its content hash registered in `contentHashes`, because the hash is
added before the dimension check runs. -/
theorem C5_contentHashes_counterexample :
    exCfg.skipDuplicates = true ∧
    (processDownload exCfg exPrims (exEnvOk exData600) 5 exState exFS "u1").outcome = .tooSmall ∧
    "hash1" ∈ (processDownload exCfg exPrims (exEnvOk exData600) 5 exState exFS "u1").state.contentHashes ∧
    (processDownload exCfg exPrims (exEnvOk exData600) 5 exState exFS "u1").fs.lookup "out/ex.com/a.png" = none := by
  decide

/-- Witness for C1 at a concrete rejected download. -/
theorem C1_rejection_deletes_witness :
    (processDownload exCfg exPrims (exEnvOk exData600) 5 exState exFS "u1").outcome = .tooSmall ∧
    ∃ p, (processDownload exCfg exPrims (exEnvOk exData600) 5 exState exFS "u1").target = some p ∧
      (processDownload exCfg exPrims (exEnvOk exData600) 5 exState exFS "u1").fs.lookup p = none :=
  ⟨by decide, C1_rejection_deletes exCfg exPrims (exEnvOk exData600) 5 exState exFS "u1"
    (Or.inr (Or.inr (Or.inr (by decide))))⟩

/-- Witness for the amended C2 at a concrete allowed download. -/
theorem C2_downloadedUrls_amended_witness :
    (processDownload exCfg exPrims (exEnvOk exData600) 5 exState exFS "u1").state.downloadedUrls =
      insert "u1" exState.downloadedUrls :=
  (C2_downloadedUrls_amended exCfg exPrims (exEnvOk exData600) 5 exState exFS "u1").2.2.1
    (by decide) (by decide)

/-- Witness for the amended C4 at a concrete dry-run download. -/
theorem C4_dryRun_amended_witness :
    (processDownload exCfgDry exPrims (exEnvOk exData600) 5 exState exFS "u1").fs.files = exFS.files ∧
    exFS.dirs ⊆ (processDownload exCfgDry exPrims (exEnvOk exData600) 5 exState exFS "u1").fs.dirs :=
  C4_dryRun_amended.1 exCfgDry exPrims (exEnvOk exData600) 5 exState exFS "u1" (by decide)

/-- Witness for the amended C5 at a concrete successful download. -/
theorem C5_contentHashes_amended_witness :
    ∃ hh, hh ∉ exState.contentHashes ∧
      (processDownload exCfg exPrims (exEnvOk exData600) 5 exState exFS "u1").state.contentHashes =
        insert hh exState.contentHashes :=
  (C5_contentHashes_amended exCfg exPrims (exEnvOk exData600) 5 exState exFS "u1").2.2.1
    (by decide) (Or.inr (by decide))

/-- Witness for C9 at a concrete image with unreadable dimensions. -/
theorem C9_dims_null_kept_witness :
    (dlFinish exCfg exState exFS "out/ex.com/a.png" exDataNoDims).outcome = .success ∧
    (dlFinish exCfg exState exFS "out/ex.com/a.png" exDataNoDims).fs = exFS :=
  C9_dims_null_kept exCfg exState exFS "out/ex.com/a.png" exDataNoDims
    (Or.inl (by decide)) (by decide) (by decide) (by decide)

theorem downloadFile_bool_indep (resp : RespEnv) :
    ∀ (fuel : Nat) (url path : String) (fs fs' : FS),
      (downloadFile resp fuel url path fs).1 =
        (downloadFile resp fuel url path fs').1 := by
  intro fuel
  induction fuel with
  | zero =>
    intro url path fs fs'
    unfold downloadFile
    cases hr : resp url with
    | none => rfl
    | some r =>
      cases ht : redirectTarget r with
      | some loc => simp only [ht]
      | none =>
        simp only [ht]
        unfold httpFinish
        by_cases h2 : r.statusCode ≠ 200
        · simp [h2]
        · cases hb : r.body <;> simp [h2, hb]
  | succ fuel ih =>
    intro url path fs fs'
    unfold downloadFile
    cases hr : resp url with
    | none => rfl
    | some r =>
      cases ht : redirectTarget r with
      | some loc => simp only [ht]; exact ih loc path fs fs'
      | none =>
        simp only [ht]
        unfold httpFinish
        by_cases h2 : r.statusCode ≠ 200
        · simp [h2]
        · cases hb : r.body <;> simp [h2, hb]

theorem succeedsAt_eq (env : Nat → RespEnv) (fuel : Nat) (url path : String)
    (k : Nat) (fs : FS) :
    (downloadFile (env k) fuel url path fs).1 = succeedsAt env fuel url path k :=
  downloadFile_bool_indep (env k) fuel url path fs emptyFS

theorem tryLoop_step_true (env fuel url path retry remaining) (fs : FS)
    (hs : (downloadFile (env retry) fuel url path fs).1 = true) :
    tryLoop env fuel url path retry (remaining + 1) fs =
      (true, (downloadFile (env retry) fuel url path fs).2, retry + 1, retry) := by
  conv_lhs => unfold tryLoop
  simp [hs]

theorem tryLoop_step_false (env fuel url path retry remaining) (fs : FS)
    (hs : (downloadFile (env retry) fuel url path fs).1 = false) :
    tryLoop env fuel url path retry (remaining + 1) fs =
      tryLoop env fuel url path (retry + 1) remaining
        (downloadFile (env retry) fuel url path fs).2 := by
  conv_lhs => unfold tryLoop
  simp [hs]

theorem tryLoop_delays (env fuel url path) : ∀ (remaining retry : Nat) (fs : FS),
    (tryLoop env fuel url path retry remaining fs).2.2.2 =
      (tryLoop env fuel url path retry remaining fs).2.2.1 - 1 := by
  intro remaining
  induction remaining with
  | zero => intro retry fs; rfl
  | succ remaining ih =>
    intro retry fs
    cases hs : (downloadFile (env retry) fuel url path fs).1 with
    | true => rw [tryLoop_step_true env fuel url path retry remaining fs hs]; simp
    | false =>
      rw [tryLoop_step_false env fuel url path retry remaining fs hs]
      exact ih (retry + 1) _

theorem tryLoop_attempts_le (env fuel url path) : ∀ (remaining retry : Nat) (fs : FS),
    retry ≤ (tryLoop env fuel url path retry remaining fs).2.2.1 ∧
    (tryLoop env fuel url path retry remaining fs).2.2.1 ≤ retry + remaining := by
  intro remaining
  induction remaining with
  | zero => intro retry fs; exact ⟨Nat.le_refl _, Nat.le_refl _⟩
  | succ remaining ih =>
    intro retry fs
    cases hs : (downloadFile (env retry) fuel url path fs).1 with
    | true =>
      rw [tryLoop_step_true env fuel url path retry remaining fs hs]
      refine ⟨Nat.le_succ retry, ?_⟩
      show retry + 1 ≤ retry + (remaining + 1)
      omega
    | false =>
      rw [tryLoop_step_false env fuel url path retry remaining fs hs]
      have := ih (retry + 1) (downloadFile (env retry) fuel url path fs).2
      omega

theorem tryLoop_succ_iff (env fuel url path) : ∀ (remaining retry : Nat) (fs : FS),
    (tryLoop env fuel url path retry remaining fs).1 = true ↔
      ∃ k, retry ≤ k ∧ k < retry + remaining ∧ succeedsAt env fuel url path k = true := by
  intro remaining
  induction remaining with
  | zero =>
    intro retry fs
    constructor
    · intro h; cases h
    · rintro ⟨k, hk1, hk2, _⟩; omega
  | succ remaining ih =>
    intro retry fs
    cases hs : (downloadFile (env retry) fuel url path fs).1 with
    | true =>
      rw [tryLoop_step_true env fuel url path retry remaining fs hs]
      constructor
      · intro _
        refine ⟨retry, Nat.le_refl _, by omega, ?_⟩
        rw [← succeedsAt_eq env fuel url path retry fs]; exact hs
      · intro _; rfl
    | false =>
      rw [tryLoop_step_false env fuel url path retry remaining fs hs]
      rw [ih (retry + 1) _]
      constructor
      · rintro ⟨k, hk1, hk2, hk3⟩
        exact ⟨k, by omega, by omega, hk3⟩
      · rintro ⟨k, hk1, hk2, hk3⟩
        refine ⟨k, ?_, by omega, hk3⟩
        rcases Nat.eq_or_lt_of_le hk1 with heq | hlt
        · exfalso
          rw [← heq, ← succeedsAt_eq env fuel url path retry fs] at hk3
          rw [hs] at hk3; cases hk3
        · omega

theorem tryLoop_first (env fuel url path) : ∀ (remaining retry : Nat) (fs : FS) (k : Nat),
    retry ≤ k → k < retry + remaining → succeedsAt env fuel url path k = true →
    (∀ j, retry ≤ j → j < k → succeedsAt env fuel url path j = false) →
    (tryLoop env fuel url path retry remaining fs).1 = true ∧
    (tryLoop env fuel url path retry remaining fs).2.2.1 = k + 1 := by
  intro remaining
  induction remaining with
  | zero => intro retry fs k h1 h2; omega
  | succ remaining ih =>
    intro retry fs k h1 h2 h3 h4
    cases hs : (downloadFile (env retry) fuel url path fs).1 with
    | true =>
      have hret : retry = k := by
        by_contra hne
        have hf : succeedsAt env fuel url path retry = false :=
          h4 retry (Nat.le_refl _) (by omega)
        rw [← succeedsAt_eq env fuel url path retry fs] at hf
        rw [hf] at hs; cases hs
      rw [tryLoop_step_true env fuel url path retry remaining fs hs]
      exact ⟨rfl, by rw [hret]⟩
    | false =>
      have hne : retry ≠ k := by
        intro heq
        rw [← heq, ← succeedsAt_eq env fuel url path retry fs] at h3
        rw [hs] at h3; cases h3
      rw [tryLoop_step_false env fuel url path retry remaining fs hs]
      exact ih (retry + 1) _ k (by omega) (by omega) h3
        (fun j hj1 hj2 => h4 j (by omega) hj2)

theorem tryLoop_fail_all (env fuel url path) : ∀ (remaining retry : Nat) (fs : FS),
    (∀ k, retry ≤ k → k < retry + remaining → succeedsAt env fuel url path k = false) →
    (tryLoop env fuel url path retry remaining fs).1 = false ∧
    (tryLoop env fuel url path retry remaining fs).2.2.1 = retry + remaining := by
  intro remaining
  induction remaining with
  | zero => intro retry fs _; exact ⟨rfl, rfl⟩
  | succ remaining ih =>
    intro retry fs hall
    cases hs : (downloadFile (env retry) fuel url path fs).1 with
    | true =>
      exfalso
      have hf := hall retry (Nat.le_refl _) (by omega)
      rw [← succeedsAt_eq env fuel url path retry fs] at hf
      rw [hf] at hs; cases hs
    | false =>
      rw [tryLoop_step_false env fuel url path retry remaining fs hs]
      have := ih (retry + 1) (downloadFile (env retry) fuel url path fs).2
        (fun k hk1 hk2 => hall k (by omega) (by omega))
      exact ⟨this.1, by omega⟩

theorem downloadFile_redirect (resp : RespEnv) (fuel : Nat) (url path : String)
    (fs : FS) (r : HttpResponse) (loc : String)
    (hr : resp url = some r) (ht : redirectTarget r = some loc) :
    downloadFile resp (fuel + 1) url path fs = downloadFile resp fuel loc path fs := by
  conv_lhs => unfold downloadFile
  simp [hr, ht]

theorem downloadFile_non200 (resp : RespEnv) (fuel : Nat) (url path : String)
    (fs : FS) (r : HttpResponse)
    (hr : resp url = some r) (ht : redirectTarget r = none)
    (hst : r.statusCode ≠ 200) :
    downloadFile resp fuel url path fs = (false, fs) := by
  cases fuel with
  | zero =>
    conv_lhs => unfold downloadFile
    simp [hr, ht, httpFinish, hst]
  | succ fuel =>
    conv_lhs => unfold downloadFile
    simp [hr, ht, httpFinish, hst]

theorem downloadFile_streamError (resp : RespEnv) (fuel : Nat) (url path : String)
    (fs : FS) (r : HttpResponse) (leftover : FileData)
    (hr : resp url = some r) (ht : redirectTarget r = none)
    (hst : r.statusCode = 200) (hb : r.body = .streamError leftover) :
    downloadFile resp fuel url path fs = (false, fs.write path leftover) := by
  cases fuel with
  | zero =>
    conv_lhs => unfold downloadFile
    simp [hr, ht, httpFinish, hst, hb]
  | succ fuel =>
    conv_lhs => unfold downloadFile
    simp [hr, ht, httpFinish, hst, hb]

/-- C7: the retry loop attempts the download at most `maxRetries`
times; it succeeds exactly when some attempt below `maxRetries`
succeeds, stopping at the first such attempt `k` after `k + 1`
attempts; when every attempt fails it reports failure after exactly
`maxRetries` attempts; the number of inter-attempt backoff delays is
one less than the number of attempts made after the first; and
`downloadFile` follows a 301/302 response with a `location` header by
re-requesting the target, fails on any other non-200 status, and fails
on a stream error, leaving whatever the broken stream wrote. -/
theorem C7_retry_redirect :
    (∀ (env : Nat → RespEnv) (fuel : Nat) (url path : String) (maxRetries : Nat) (fs : FS),
      (tryDownload env fuel url path maxRetries fs).2.2.1 ≤ maxRetries) ∧
    (∀ (env : Nat → RespEnv) (fuel : Nat) (url path : String) (maxRetries : Nat) (fs : FS),
      (tryDownload env fuel url path maxRetries fs).1 = true ↔
        ∃ k, k < maxRetries ∧ succeedsAt env fuel url path k = true) ∧
    (∀ (env : Nat → RespEnv) (fuel : Nat) (url path : String) (maxRetries : Nat) (fs : FS)
        (k : Nat), k < maxRetries → succeedsAt env fuel url path k = true →
        (∀ j, j < k → succeedsAt env fuel url path j = false) →
        (tryDownload env fuel url path maxRetries fs).1 = true ∧
        (tryDownload env fuel url path maxRetries fs).2.2.1 = k + 1) ∧
    (∀ (env : Nat → RespEnv) (fuel : Nat) (url path : String) (maxRetries : Nat) (fs : FS),
      (∀ k, k < maxRetries → succeedsAt env fuel url path k = false) →
      (tryDownload env fuel url path maxRetries fs).1 = false ∧
      (tryDownload env fuel url path maxRetries fs).2.2.1 = maxRetries) ∧
    (∀ (env : Nat → RespEnv) (fuel : Nat) (url path : String) (maxRetries : Nat) (fs : FS),
      (tryDownload env fuel url path maxRetries fs).2.2.2 =
        (tryDownload env fuel url path maxRetries fs).2.2.1 - 1) ∧
    (∀ (resp : RespEnv) (fuel : Nat) (url path : String) (fs : FS)
        (r : HttpResponse) (loc : String), resp url = some r →
      redirectTarget r = some loc →
      downloadFile resp (fuel + 1) url path fs = downloadFile resp fuel loc path fs) ∧
    (∀ (resp : RespEnv) (fuel : Nat) (url path : String) (fs : FS)
        (r : HttpResponse), resp url = some r → redirectTarget r = none →
      r.statusCode ≠ 200 → downloadFile resp fuel url path fs = (false, fs)) ∧
    (∀ (resp : RespEnv) (fuel : Nat) (url path : String) (fs : FS)
        (r : HttpResponse) (leftover : FileData), resp url = some r →
      redirectTarget r = none → r.statusCode = 200 → r.body = .streamError leftover →
      downloadFile resp fuel url path fs = (false, fs.write path leftover)) := by
  refine ⟨?_, ?_, ?_, ?_, ?_, downloadFile_redirect, downloadFile_non200,
    downloadFile_streamError⟩
  · intro env fuel url path maxRetries fs
    simpa using (tryLoop_attempts_le env fuel url path maxRetries 0 fs).2
  · intro env fuel url path maxRetries fs
    rw [tryDownload, tryLoop_succ_iff env fuel url path maxRetries 0 fs]
    constructor
    · rintro ⟨k, _, hk2, hk3⟩; exact ⟨k, by omega, hk3⟩
    · rintro ⟨k, hk1, hk3⟩; exact ⟨k, by omega, by omega, hk3⟩
  · intro env fuel url path maxRetries fs k hk hsk hfirst
    have := tryLoop_first env fuel url path maxRetries 0 fs k (by omega) (by omega) hsk
      (fun j _ hj => hfirst j hj)
    simpa [tryDownload] using this
  · intro env fuel url path maxRetries fs hall
    have := tryLoop_fail_all env fuel url path maxRetries 0 fs
      (fun k _ hk => hall k (by omega))
    simpa [tryDownload] using this
  · intro env fuel url path maxRetries fs
    exact tryLoop_delays env fuel url path maxRetries 0 fs

/-- Witness for C7 at a concrete mixed-outcome response schedule. -/
theorem C7_retry_redirect_witness :
    (1 < 3 ∧ succeedsAt exEnvMix 5 "u1" "p" 1 = true ∧
      (∀ j, j < 1 → succeedsAt exEnvMix 5 "u1" "p" j = false)) ∧
    (tryDownload exEnvMix 5 "u1" "p" 3 exFS).1 = true ∧
    (tryDownload exEnvMix 5 "u1" "p" 3 exFS).2.2.1 = 2 := by
  refine ⟨⟨by omega, by decide, ?_⟩, ?_⟩
  · intro j hj
    interval_cases j
    decide
  · exact C7_retry_redirect.2.2.1 exEnvMix 5 "u1" "p" 3 exFS 1 (by omega)
      (by decide) (by intro j hj; interval_cases j; decide)

/-! ### C6: domain discovery -/

theorem foldl_insert_mem (hosts : List String) :
    ∀ (init : Finset String) (d : String),
      (d ∈ hosts.foldl (fun s x => if x ≠ "" then insert x s else s) init ↔
        d ∈ init ∨ (d ∈ hosts ∧ d ≠ "")) := by
  induction hosts with
  | nil => intro init d; simp
  | cons h rest ih =>
    intro init d
    by_cases hh : h = ""
    · simp only [List.foldl_cons, hh]
      rw [if_neg (by simp)]
      rw [ih init d]
      constructor
      · rintro (hi | ⟨hm, hne⟩)
        · exact Or.inl hi
        · exact Or.inr ⟨List.mem_cons_of_mem _ hm, hne⟩
      · rintro (hi | ⟨hm, hne⟩)
        · exact Or.inl hi
        · rcases List.mem_cons.mp hm with rfl | hm'
          · exact absurd rfl hne
          · exact Or.inr ⟨hm', hne⟩
    · simp only [List.foldl_cons]
      rw [if_pos (by simpa using hh)]
      rw [ih (insert h init) d]
      rw [Finset.mem_insert]
      constructor
      · rintro ((rfl | hi) | ⟨hm, hne⟩)
        · exact Or.inr ⟨List.mem_cons_self _ _, hh⟩
        · exact Or.inl hi
        · exact Or.inr ⟨List.mem_cons_of_mem _ hm, hne⟩
      · rintro (hi | ⟨hm, hne⟩)
        · exact Or.inl (Or.inr hi)
        · rcases List.mem_cons.mp hm with rfl | hm'
          · exact Or.inl (Or.inl rfl)
          · exact Or.inr ⟨hm', hne⟩

/-- C6: the returned set always contains the seed host; every other
member is a nonempty host observed among the seed page's media URLs
whose name contains a recognised CDN/asset marker; with no additional
hosts observed (or on render failure) the result is exactly the
singleton of the seed host. -/
theorem C6_allowed_domains :
    (∀ (seed : String) (observed : Option (List String)),
      seed ∈ discoverAllowedDomains seed observed) ∧
    (∀ (seed : String) (observed : Option (List String)) (d : String),
      d ∈ discoverAllowedDomains seed observed → d ≠ seed →
      ∃ hosts, observed = some hosts ∧ d ∈ hosts ∧
        (cdnMarkers.any fun m => strContains d m) = true) ∧
    (∀ seed : String, discoverAllowedDomains seed none = {seed}) ∧
    (∀ (seed : String) (hosts : List String),
      (∀ h ∈ hosts, h = seed ∨ h = "") →
      discoverAllowedDomains seed (some hosts) = {seed}) := by
  refine ⟨?_, ?_, ?_, ?_⟩
  · intro seed observed
    cases observed with
    | none => simp [discoverAllowedDomains]
    | some hosts => simp [discoverAllowedDomains]
  · intro seed observed d hd hne
    cases observed with
    | none =>
      simp [discoverAllowedDomains] at hd
      exact absurd hd hne
    | some hosts =>
      refine ⟨hosts, rfl, ?_⟩
      simp only [discoverAllowedDomains, Finset.mem_insert] at hd
      rcases hd with rfl | hd
      · exact absurd rfl hne
      · rw [Finset.mem_filter] at hd
        obtain ⟨hmem, hkeep⟩ := hd
        rw [foldl_insert_mem] at hmem
        rcases hmem with hseed | ⟨hm, _⟩
        · exact absurd (Finset.mem_singleton.mp hseed) hne
        · refine ⟨hm, ?_⟩
          unfold keepDomain at hkeep
          rcases Bool.or_eq_true_iff.mp hkeep with he | hmark
          · exact absurd (by simpa using he) hne
          · exact hmark
  · intro seed; rfl
  · intro seed hosts hall
    apply Finset.ext
    intro x
    simp only [discoverAllowedDomains, Finset.mem_insert, Finset.mem_singleton]
    constructor
    · rintro (rfl | hx)
      · rfl
      · rw [Finset.mem_filter] at hx
        rw [foldl_insert_mem] at hx
        rcases hx.1 with hs | ⟨hm, hne⟩
        · exact Finset.mem_singleton.mp hs
        · rcases hall x hm with rfl | rfl
          · rfl
          · exact absurd rfl hne
    · rintro rfl
      exact Or.inl rfl

/-- Witness for C6 at a concrete seed and render result. -/
theorem C6_allowed_domains_witness :
    "example.com" ∈ discoverAllowedDomains "example.com"
        (some ["assets.examplecdn.net", "ads.example-tracking.com", ""]) ∧
    ("assets.examplecdn.net" ∈ discoverAllowedDomains "example.com"
        (some ["assets.examplecdn.net", "ads.example-tracking.com", ""]) →
      ∃ hosts, (some ["assets.examplecdn.net", "ads.example-tracking.com", ""] :
          Option (List String)) = some hosts ∧ "assets.examplecdn.net" ∈ hosts ∧
        (cdnMarkers.any fun m => strContains "assets.examplecdn.net" m) = true) ∧
    discoverAllowedDomains "example.com" (some ["example.com", ""]) = {"example.com"} := by
  refine ⟨C6_allowed_domains.1 "example.com" _, fun hmem =>
    C6_allowed_domains.2.1 "example.com" _ _ hmem (by decide), ?_⟩
  exact C6_allowed_domains.2.2.2 "example.com" _ (by decide)

theorem crawlLinks_spec {env : PageEnv} {d : Nat}
    {f : String → Finset String → CrawlRes} (hf : CrawlSpec env d f) :
    ∀ (ls : List String) (acc : CrawlRes),
      ∃ Δ, (crawlLinks f ls acc).rendered = acc.rendered ++ Δ ∧
        Δ.Nodup ∧
        (∀ u ∈ Δ, u ∉ acc.visited) ∧
        (∀ u, u ∈ (crawlLinks f ls acc).visited ↔ u ∈ acc.visited ∨ u ∈ Δ) ∧
        (∀ u ∈ Δ, ∃ l ∈ ls, HopsLe env d l u) := by
  intro ls
  induction ls with
  | nil =>
    intro acc
    exact ⟨[], by simp [crawlLinks], List.nodup_nil, by simp, by simp [crawlLinks], by simp⟩
  | cons l rest ih =>
    intro acc
    obtain ⟨hn, hnv, hvis, hhops⟩ := hf l acc.visited
    obtain ⟨Δ', heq', hn', hnv', hvis', hhops'⟩ :=
      ih ⟨acc.media ++ (f l acc.visited).media, (f l acc.visited).visited,
        acc.rendered ++ (f l acc.visited).rendered⟩
    refine ⟨(f l acc.visited).rendered ++ Δ', ?_, ?_, ?_, ?_, ?_⟩
    · show (crawlLinks f (l :: rest) acc).rendered = _
      rw [crawlLinks, heq', List.append_assoc]
    · rw [List.nodup_append]
      refine ⟨hn, hn', fun u hu hu' => ?_⟩
      have : u ∈ (f l acc.visited).visited := (hvis u).mpr (Or.inr hu)
      exact hnv' u hu' (by simpa using this)
    · intro u hu
      rcases List.mem_append.mp hu with hu | hu
      · exact hnv u hu
      · intro hacc
        exact hnv' u hu (by simpa using (hvis u).mpr (Or.inl hacc))
    · intro u
      rw [crawlLinks]
      rw [hvis' u]
      simp only [List.mem_append]
      rw [hvis u]
      tauto
    · intro u hu
      rcases List.mem_append.mp hu with hu | hu
      · exact ⟨l, List.mem_cons_self _ _, hhops u hu⟩
      · obtain ⟨l', hl', hh⟩ := hhops' u hu
        exact ⟨l', List.mem_cons_of_mem _ hl', hh⟩

theorem crawlGo_spec (env : PageEnv) :
    ∀ d : Nat, CrawlSpec env d (crawlGo env d) := by
  intro d
  induction d with
  | zero =>
    intro url vis
    by_cases hv : url ∈ vis
    · simp [crawlGo, hv]
    · cases he : env url with
      | none =>
        simp only [crawlGo, if_neg hv, he]
        exact ⟨List.nodup_singleton _, by simpa using hv,
          (by intro u; simp [Finset.mem_insert]; tauto),
          by intro u hu; rw [List.mem_singleton.mp hu]; exact HopsLe.refl 0 url⟩
      | some pg =>
        simp only [crawlGo, if_neg hv, he]
        exact ⟨List.nodup_singleton _, by simpa using hv,
          (by intro u; simp [Finset.mem_insert]; tauto),
          by intro u hu; rw [List.mem_singleton.mp hu]; exact HopsLe.refl 0 url⟩
  | succ d ih =>
    intro url vis
    by_cases hv : url ∈ vis
    · simp [crawlGo, hv]
    · cases he : env url with
      | none =>
        simp only [crawlGo, if_neg hv, he]
        exact ⟨List.nodup_singleton _, by simpa using hv,
          (by intro u; simp [Finset.mem_insert]; tauto),
          by intro u hu; rw [List.mem_singleton.mp hu]; exact HopsLe.refl _ url⟩
      | some pg =>
        simp only [crawlGo, if_neg hv, he]
        obtain ⟨Δ, heq, hn, hnv, hvis, hhops⟩ :=
          crawlLinks_spec ih pg.links ⟨pg.media, insert url vis, [url]⟩
        have hd2 : (crawlLinks (crawlGo env d) pg.links
            ⟨pg.media, insert url vis, [url]⟩).rendered = url :: Δ := by
          simpa using heq
        have hnv2 : ∀ u ∈ Δ, u ∉ insert url vis := hnv
        have hvis2 : ∀ u, u ∈ (crawlLinks (crawlGo env d) pg.links
            ⟨pg.media, insert url vis, [url]⟩).visited ↔
            u ∈ insert url vis ∨ u ∈ Δ := hvis
        rw [hd2]
        refine ⟨?_, ?_, ?_, ?_⟩
        · rw [List.nodup_cons]
          refine ⟨fun hu => ?_, hn⟩
          exact hnv2 url hu (Finset.mem_insert_self _ _)
        · intro u hu
          rcases List.mem_cons.mp hu with rfl | hu
          · exact hv
          · intro huv
            exact hnv2 u hu (Finset.mem_insert_of_mem huv)
        · intro u
          rw [hvis2 u]
          simp only [Finset.mem_insert, List.mem_cons]
          tauto
        · intro u hu
          rcases List.mem_cons.mp hu with rfl | hu
          · exact HopsLe.refl _ u
          · obtain ⟨l, hl, hh⟩ := hhops u hu
            exact HopsLe.step he hl hh

/-- C3: `crawlPage` returns immediately, leaving the visited set
unchanged and rendering nothing, when the depth is negative or the URL
was already visited; otherwise the URL is marked visited before
rendering.  The visited set only grows, and ends as exactly the
initial set plus the pages rendered in this call; no page is rendered
twice or rendered when already visited; and every rendered page is
reachable from the start URL within `depth` link-hops. -/
theorem C3_crawl_guards :
    (∀ (env : PageEnv) (url : String) (depth : Int) (vis : Finset String),
      depth < 0 ∨ url ∈ vis → crawlPage env url depth vis = ⟨[], vis, []⟩) ∧
    (∀ (env : PageEnv) (url : String) (depth : Int) (vis : Finset String),
      vis ⊆ (crawlPage env url depth vis).visited) ∧
    (∀ (env : PageEnv) (url : String) (depth : Int) (vis : Finset String) (u : String),
      u ∈ (crawlPage env url depth vis).visited ↔
        u ∈ vis ∨ u ∈ (crawlPage env url depth vis).rendered) ∧
    (∀ (env : PageEnv) (url : String) (depth : Int) (vis : Finset String),
      (crawlPage env url depth vis).rendered.Nodup ∧
      ∀ u ∈ (crawlPage env url depth vis).rendered, u ∉ vis) ∧
    (∀ (env : PageEnv) (url : String) (depth : Int) (vis : Finset String)
        (u : String), u ∈ (crawlPage env url depth vis).rendered →
      HopsLe env depth.toNat url u) ∧
    (∀ (env : PageEnv) (url : String) (depth : Int) (vis : Finset String),
      0 ≤ depth → url ∉ vis → url ∈ (crawlPage env url depth vis).visited) := by
  have hmain : ∀ (env : PageEnv) (url : String) (depth : Int) (vis : Finset String),
      (crawlPage env url depth vis).rendered.Nodup ∧
      (∀ u ∈ (crawlPage env url depth vis).rendered, u ∉ vis) ∧
      (∀ u, u ∈ (crawlPage env url depth vis).visited ↔
        u ∈ vis ∨ u ∈ (crawlPage env url depth vis).rendered) ∧
      (∀ u ∈ (crawlPage env url depth vis).rendered, HopsLe env depth.toNat url u) := by
    intro env url depth vis
    unfold crawlPage
    by_cases hneg : depth < 0 ∨ url ∈ vis
    · simp only [hneg, if_true]
      exact ⟨List.nodup_nil, by simp, by simp, by simp⟩
    · simp only [hneg, if_false]
      exact crawlGo_spec env depth.toNat url vis
  refine ⟨?_, ?_, ?_, ?_, ?_, ?_⟩
  · intro env url depth vis h
    simp [crawlPage, h]
  · intro env url depth vis u hu
    exact ((hmain env url depth vis).2.2.1 u).mpr (Or.inl hu)
  · intro env url depth vis u
    exact (hmain env url depth vis).2.2.1 u
  · intro env url depth vis
    exact ⟨(hmain env url depth vis).1, (hmain env url depth vis).2.1⟩
  · intro env url depth vis u hu
    exact (hmain env url depth vis).2.2.2 u hu
  · intro env url depth vis hd hv
    have : ¬(depth < 0 ∨ url ∈ vis) := by
      rintro (h | h)
      · omega
      · exact hv h
    unfold crawlPage
    simp only [this, if_false]
    cases hn : depth.toNat with
    | zero =>
      rw [((crawlGo_spec env 0 url vis).2.2.1 url)]
      right
      simp [crawlGo, hv]
      cases he : env url <;> simp
    | succ d =>
      rw [((crawlGo_spec env (d+1) url vis).2.2.1 url)]
      right
      simp only [crawlGo, if_neg hv]
      cases he : env url with
      | none => simp
      | some pg =>
        obtain ⟨Δ, heq, _, _, _, _⟩ :=
          crawlLinks_spec (crawlGo_spec env d) pg.links ⟨pg.media, insert url vis, [url]⟩
        rw [heq]
        simp

/-- Witness for C3 at a concrete two-page site. -/
theorem C3_crawl_guards_witness :
    crawlPage exPages "a" (-1) ∅ = ⟨[], ∅, []⟩ ∧
    "a" ∈ (crawlPage exPages "a" 1 ∅).visited :=
  ⟨C3_crawl_guards.1 exPages "a" (-1) ∅ (Or.inl (by decide)),
   C3_crawl_guards.2.2.2.2.2 exPages "a" 1 ∅ (by decide) (by decide)⟩

/-! ### Generic dedup lemmas -/

theorem lookup_unlinkAll (ps : List String) :
    ∀ (fs : FS) (q : String),
      (unlinkAll fs ps).lookup q = if q ∈ ps then none else fs.lookup q := by
  induction ps with
  | nil => intro fs q; simp [unlinkAll]
  | cons p rest ih =>
    intro fs q
    show (unlinkAll (fs.unlink p) rest).lookup q = _
    rw [ih (fs.unlink p) q]
    by_cases hq : q ∈ rest
    · simp [hq]
    · by_cases hqp : q = p
      · subst hqp
        simp [hq]
    -- q = p case: lookup (unlink p) q = none
      · simp [hq, hqp, FS.lookup_unlink_ne fs hqp]

theorem unlinkAll_dirs (ps : List String) : ∀ fs : FS,
    (unlinkAll fs ps).dirs = fs.dirs := by
  induction ps with
  | nil => intro fs; rfl
  | cons p rest ih => intro fs; exact ih (fs.unlink p)

theorem subperm_nodup {α : Type} {l₁ l₂ : List α}
    (h : l₁.Subperm l₂) (h₂ : l₂.Nodup) : l₁.Nodup := by
  obtain ⟨l, hperm, hsub⟩ := h
  exact hperm.nodup (hsub.nodup h₂)

theorem subperm_map {α β : Type} (f : α → β) {l₁ l₂ : List α}
    (h : l₁.Subperm l₂) : (l₁.map f).Subperm (l₂.map f) := by
  obtain ⟨l, hperm, hsub⟩ := h
  exact ⟨l.map f, hperm.map f, hsub.map f⟩

theorem insertionSort_head_rel {α : Type} (r : α → α → Prop) [DecidableRel r]
    [IsTotal α r] [IsTrans α r] (l : List α) (x : α) (xs : List α)
    (h : List.insertionSort r l = x :: xs) : ∀ y ∈ l, r x y := by
  intro y hy
  have hperm := List.perm_insertionSort r l
  have hmem : y ∈ x :: xs := by
    rw [← h]
    exact hperm.symm.subset hy
  rcases List.mem_cons.mp hmem with rfl | hmem'
  · rcases IsTotal.total (r := r) y y with h' | h' <;> exact h'
  · have hsorted := List.sorted_insertionSort r l
    rw [h] at hsorted
    exact List.rel_of_sorted_cons hsorted y hmem'

theorem insertionSort_ne_nil {α : Type} (r : α → α → Prop) [DecidableRel r]
    {l : List α} (h : l ≠ []) : List.insertionSort r l ≠ [] := by
  intro hn
  have hp := List.perm_insertionSort r l
  rw [hn] at hp
  exact h hp.nil_eq.symm

theorem groupByKeyFuel_key {α : Type} (key : α → Option String) :
    ∀ (fuel : Nat) (l : List α), l.length ≤ fuel →
      ∀ k g, (k, g) ∈ groupByKeyFuel key fuel l → ∀ a ∈ g, key a = some k := by
  intro fuel
  induction fuel with
  | zero =>
    intro l hl k g hg
    cases l with
    | nil => cases hg
    | cons a rest => simp at hl
  | succ fuel ih =>
    intro l hl k g hg a ha
    cases l with
    | nil => cases hg
    | cons b rest =>
      simp only [groupByKeyFuel] at hg
      cases hb : key b with
      | none =>
        rw [hb] at hg
        exact ih rest (by simpa using Nat.le_of_succ_le_succ hl) k g hg a ha
      | some kb =>
        rw [hb] at hg
        rcases List.mem_cons.mp hg with heq | hg'
        · rw [Prod.mk.injEq] at heq
          obtain ⟨hk, hgeq⟩ := heq
          subst hk
          rw [hgeq] at ha
          rcases List.mem_cons.mp ha with rfl | ha'
          · exact hb
          · simpa using (List.mem_filter.mp ha').2
        · refine ih (rest.filter (fun b => ¬ key b = some kb)) ?_ k g hg' a ha
          calc (rest.filter (fun b => ¬ key b = some kb)).length
              ≤ rest.length := List.length_filter_le _ _
            _ ≤ fuel := by simpa using Nat.le_of_succ_le_succ hl

theorem groupByKeyFuel_nonempty {α : Type} (key : α → Option String) :
    ∀ (fuel : Nat) (l : List α),
      ∀ k g, (k, g) ∈ groupByKeyFuel key fuel l → g ≠ [] := by
  intro fuel
  induction fuel with
  | zero =>
    intro l k g hg
    cases l with
    | nil => cases hg
    | cons a rest => cases hg
  | succ fuel ih =>
    intro l k g hg
    cases l with
    | nil => cases hg
    | cons b rest =>
      simp only [groupByKeyFuel] at hg
      cases hb : key b with
      | none => rw [hb] at hg; exact ih rest k g hg
      | some kb =>
        rw [hb] at hg
        rcases List.mem_cons.mp hg with heq | hg'
        · rw [Prod.mk.injEq] at heq
          rw [heq.2]
          exact List.cons_ne_nil _ _
        · exact ih _ k g hg'

theorem filter_split_perm {α : Type} (key : α → Option String) (kb : String) :
    ∀ l : List α,
      (l.filter (fun a => (key a).isSome)).Perm
        ((l.filter (fun x => key x = some kb)) ++
         ((l.filter (fun b => ¬ key b = some kb)).filter
           (fun a => (key a).isSome))) := by
  intro l
  induction l with
  | nil => simp
  | cons c cs ihc =>
    by_cases hc : key c = some kb
    · simp only [List.filter_cons]
      rw [if_pos (by simp [hc]), if_pos (by simp [hc]), if_neg (by simp [hc])]
      exact ihc.cons c
    · by_cases hcs : (key c).isSome
      · simp only [List.filter_cons]
        rw [if_pos (by simpa using hcs), if_neg (by simp [hc]),
          if_pos (by simp [hc])]
        simp only [List.filter_cons]
        rw [if_pos (by simpa using hcs)]
        exact List.Perm.trans (ihc.cons c) List.perm_middle.symm
      · simp only [List.filter_cons]
        rw [if_neg (by simpa using hcs), if_neg (by simp [hc]),
          if_pos (by simp [hc])]
        simp only [List.filter_cons]
        rw [if_neg (by simpa using hcs)]
        exact ihc

theorem groupByKeyFuel_bind_perm {α : Type} (key : α → Option String) :
    ∀ (fuel : Nat) (l : List α), l.length ≤ fuel →
      ((groupByKeyFuel key fuel l).flatMap (·.2)).Perm
        (l.filter (fun a => (key a).isSome)) := by
  intro fuel
  induction fuel with
  | zero =>
    intro l hl
    cases l with
    | nil => simp [groupByKeyFuel]
    | cons a rest => simp at hl
  | succ fuel ih =>
    intro l hl
    cases l with
    | nil => simp [groupByKeyFuel]
    | cons b rest =>
      simp only [groupByKeyFuel]
      cases hb : key b with
      | none =>
        have := ih rest (by simpa using Nat.le_of_succ_le_succ hl)
        simpa [List.filter_cons, hb] using this
      | some kb =>
        simp only [List.flatMap_cons]
        have hfl : List.filter (fun a => (key a).isSome) (b :: rest)
            = b :: List.filter (fun a => (key a).isSome) rest := by
          simp [List.filter_cons, hb]
        rw [hfl, List.cons_append]
        refine List.Perm.cons b ?_
        have hrec := ih (rest.filter (fun b => ¬ key b = some kb))
          (le_trans (List.length_filter_le _ _)
            (by simpa using Nat.le_of_succ_le_succ hl))
        refine List.Perm.trans (List.Perm.append_left _ hrec) ?_
        exact (filter_split_perm key kb rest).symm

theorem groupByKeyFuel_mem_subset {α : Type} (key : α → Option String)
    {fuel : Nat} {l : List α} (hl : l.length ≤ fuel) {k : String} {g : List α}
    (hg : (k, g) ∈ groupByKeyFuel key fuel l) {a : α} (ha : a ∈ g) : a ∈ l := by
  have hb : a ∈ (groupByKeyFuel key fuel l).flatMap (·.2) :=
    List.mem_flatMap.mpr ⟨(k, g), hg, ha⟩
  have := (groupByKeyFuel_bind_perm key fuel l hl).subset hb
  exact List.mem_of_mem_filter this

theorem groupByKeyFuel_complete {α : Type} (key : α → Option String) :
    ∀ (fuel : Nat) (l : List α), l.length ≤ fuel →
      ∀ a ∈ l, ∀ k, key a = some k →
        ∃ g, (k, g) ∈ groupByKeyFuel key fuel l ∧ a ∈ g := by
  intro fuel
  induction fuel with
  | zero =>
    intro l hl a ha
    cases l with
    | nil => cases ha
    | cons b rest => simp at hl
  | succ fuel ih =>
    intro l hl a ha k hk
    cases l with
    | nil => cases ha
    | cons b rest =>
      simp only [groupByKeyFuel]
      cases hb : key b with
      | none =>
        rcases List.mem_cons.mp ha with rfl | ha'
        · rw [hk] at hb; cases hb
        · exact ih rest (by simpa using Nat.le_of_succ_le_succ hl) a ha' k hk
      | some kb =>
        rcases List.mem_cons.mp ha with rfl | ha'
        · rw [hk] at hb
          obtain rfl : kb = k := (Option.some.injEq _ _ ▸ hb).symm
          exact ⟨_, List.mem_cons_self _ _, List.mem_cons_self _ _⟩
        · by_cases hkb : k = kb
          · subst hkb
            refine ⟨_, List.mem_cons_self _ _, ?_⟩
            exact List.mem_cons_of_mem _ (List.mem_filter.mpr ⟨ha', by simp [hk]⟩)
          · obtain ⟨g, hgmem, hag⟩ := ih (rest.filter (fun b => ¬ key b = some kb))
              (le_trans (List.length_filter_le _ _)
                (by simpa using Nat.le_of_succ_le_succ hl))
              a (List.mem_filter.mpr ⟨ha', by simp [hk, hkb]⟩) k hk
            exact ⟨g, List.mem_cons_of_mem _ hgmem, hag⟩

theorem groupByKeyFuel_keys_nodup {α : Type} (key : α → Option String) :
    ∀ (fuel : Nat) (l : List α), l.length ≤ fuel →
      ((groupByKeyFuel key fuel l).map (·.1)).Nodup := by
  intro fuel
  induction fuel with
  | zero =>
    intro l hl
    cases l with
    | nil => simp [groupByKeyFuel]
    | cons b rest => simp at hl
  | succ fuel ih =>
    intro l hl
    cases l with
    | nil => simp [groupByKeyFuel]
    | cons b rest =>
      simp only [groupByKeyFuel]
      cases hb : key b with
      | none => exact ih rest (by simpa using Nat.le_of_succ_le_succ hl)
      | some kb =>
        have hlen : (rest.filter (fun b => ¬ key b = some kb)).length ≤ fuel :=
          le_trans (List.length_filter_le _ _)
            (by simpa using Nat.le_of_succ_le_succ hl)
        simp only [List.map_cons, List.nodup_cons]
        refine ⟨?_, ih _ hlen⟩
        intro hmem
        obtain ⟨⟨k', g'⟩, hg', hk'⟩ := List.mem_map.mp hmem
        simp only at hk'
        subst hk'
        obtain ⟨a, ha⟩ := List.exists_mem_of_ne_nil _
          (groupByKeyFuel_nonempty key fuel _ _ _ hg')
        have hka := groupByKeyFuel_key key fuel _ hlen _ _ hg' a ha
        have hal := groupByKeyFuel_mem_subset key hlen hg' ha
        have := (List.mem_filter.mp hal).2
        rw [hka] at this
        simp at this

theorem join_filterMap_subperm {α β : Type} (N : β → List α)
    (F : β → Option (List α)) :
    ∀ (L : List β), (∀ b ∈ L, ∀ g, F b = some g → g.Perm (N b)) →
      ((L.filterMap F).flatten).Subperm (L.flatMap N) := by
  intro L
  induction L with
  | nil => intro _; simp
  | cons b bs ih =>
    intro h
    have ihs := ih (fun b' hb' => h b' (List.mem_cons_of_mem _ hb'))
    cases hF : F b with
    | none =>
      rw [List.filterMap_cons_none hF]
      refine List.Subperm.trans ihs ?_
      exact (List.sublist_append_right _ _).subperm
    | some g =>
      rw [List.filterMap_cons_some hF]
      rw [List.flatten_cons, List.flatMap_cons]
      obtain ⟨m, hm, hsub⟩ := ihs
      refine ⟨N b ++ m, ?_, hsub.append_left (N b)⟩
      refine List.Perm.trans (List.Perm.append_left (N b) hm) ?_
      exact List.Perm.append_right _ (h b (List.mem_cons_self _ _) g hF).symm

theorem drop_one_sublist {α : Type} (g : List α) : (g.drop 1).Sublist g := by
  cases g with
  | nil => simp
  | cons x xs => simp [List.sublist_cons_self x xs]

theorem bind_drop_sublist_join {α : Type} :
    ∀ groups : List (List α), (groups.flatMap (·.drop 1)).Sublist groups.flatten := by
  intro groups
  induction groups with
  | nil => simp
  | cons g gs ih =>
    rw [List.flatMap_cons, List.flatten_cons]
    exact List.Sublist.append (drop_one_sublist g) ih

theorem head_path_not_in_tails {α : Type} (f : α → String) :
    ∀ (groups : List (List α)), ((groups.flatten).map f).Nodup →
      ∀ x xs, (x :: xs) ∈ groups →
        f x ∉ ((groups.flatMap (·.drop 1)).map f) := by
  intro groups
  induction groups with
  | nil => intro _ x xs hmem; cases hmem
  | cons g gs ih =>
    intro hnd x xs hmem
    rw [List.flatten_cons, List.map_append, List.nodup_append] at hnd
    obtain ⟨hn1, hn2, hdisj⟩ := hnd
    rw [List.flatMap_cons, List.map_append]
    rw [List.mem_append]
    rintro (hin | hin)
    · -- f x among the tails of the first group
      rcases List.mem_cons.mp hmem with rfl | hmem'
      · -- g = x :: xs : f x also heads g, contradicting Nodup (map f g)
        rw [List.map_cons, List.nodup_cons] at hn1
        exact hn1.1 (by simpa using hin)
      · -- x lives in a later group: f x is in map f (join gs), contradicting disjointness
        have hxj : f x ∈ (gs.flatten.map f) := by
          refine List.mem_map.mpr ⟨x, ?_, rfl⟩
          exact List.mem_flatten.mpr ⟨x :: xs, hmem', List.mem_cons_self _ _⟩
        have hxg : f x ∈ g.map f := by
          have : (g.drop 1).Sublist g := drop_one_sublist g
          obtain ⟨d, hd, hfd⟩ := List.mem_map.mp hin
          exact List.mem_map.mpr ⟨d, this.subset hd, hfd⟩
        exact hdisj hxg hxj
    · rcases List.mem_cons.mp hmem with rfl | hmem'
      · -- x heads the first group but f x appears among later groups
        have hxg : f x ∈ (x :: xs).map f :=
          List.mem_map.mpr ⟨x, List.mem_cons_self _ _, rfl⟩
        have hxj : f x ∈ (gs.flatten.map f) := by
          obtain ⟨d, hd, hfd⟩ := List.mem_map.mp hin
          exact List.mem_map.mpr ⟨d, (bind_drop_sublist_join gs).subset hd, hfd⟩
        exact hdisj hxg hxj
      · exact ih hn2 x xs hmem' hin

/-- The survivor of every nonempty group survives the deletion pass, and
every non-survivor is removed. -/
theorem retention {α : Type} (f : α → String) (groups : List (List α)) (fs : FS)
    (hnd : ((groups.flatten).map f).Nodup) :
    ∀ x xs, (x :: xs) ∈ groups →
      ((unlinkAll fs ((groups.flatMap (·.drop 1)).map f)).lookup (f x) =
        fs.lookup (f x)) ∧
      (∀ d ∈ xs, (unlinkAll fs ((groups.flatMap (·.drop 1)).map f)).lookup (f d) = none) := by
  intro x xs hmem
  constructor
  · rw [lookup_unlinkAll]
    rw [if_neg (head_path_not_in_tails f groups hnd x xs hmem)]
  · intro d hd
    rw [lookup_unlinkAll]
    rw [if_pos]
    refine List.mem_map.mpr ⟨d, ?_, rfl⟩
    exact List.mem_flatMap.mpr ⟨x :: xs, hmem, by simpa using hd⟩

theorem filterMap_path_sublist {α β : Type} (F : α → Option β)
    (pb : β → String) (pa : α → String)
    (h : ∀ a b, F a = some b → pb b = pa a) :
    ∀ l : List α, ((l.filterMap F).map pb).Sublist (l.map pa) := by
  intro l
  induction l with
  | nil => simp
  | cons a rest ih =>
    cases hF : F a with
    | none =>
      rw [List.filterMap_cons_none hF, List.map_cons]
      exact ih.cons _
    | some b =>
      rw [List.filterMap_cons_some hF, List.map_cons, List.map_cons, h a b hF]
      exact ih.cons₂ _

theorem lookup_of_mem_nodup {p : String} {d : FileData} :
    ∀ l : List (String × FileData), (p, d) ∈ l → (l.map Prod.fst).Nodup →
      lookupFile l p = some d := by
  intro l
  induction l with
  | nil => intro h; cases h
  | cons e rest ih =>
    intro hmem hnd
    rw [List.map_cons, List.nodup_cons] at hnd
    rcases List.mem_cons.mp hmem with heq | hmem'
    · rw [← heq]
      simp [lookupFile]
    · have hne : e.1 ≠ p := by
        intro hep
        exact hnd.1 (List.mem_map.mpr ⟨(p, d), hmem', by simpa using hep.symm⟩)
      simp only [lookupFile, if_neg hne]
      exact ih hmem' hnd.2

theorem findMediaFiles_paths_sublist (fs : FS) :
    ((findMediaFiles fs).map (·.filepath)).Sublist (fs.files.map Prod.fst) := by
  refine filterMap_path_sublist _ _ _ ?_ fs.files
  intro e f hef
  by_cases hc : extLowerOf e.1 ∈ scannerMediaExtensions
  · rw [if_pos hc] at hef
    cases hef
    rfl
  · rw [if_neg hc] at hef
    cases hef

theorem groups_filterMap_members_subperm {α : Type} (key : α → Option String)
    (l : List α) (G : String × List α → Option (List α))
    (hG : ∀ kg m, G kg = some m → m.Perm kg.2) :
    (((groupByKey key l).filterMap G).flatten).Subperm l := by
  refine List.Subperm.trans
    (join_filterMap_subperm (·.2) G (groupByKey key l)
      (fun b _ g h => hG b g h)) ?_
  refine List.Subperm.trans
    (List.Perm.subperm (groupByKeyFuel_bind_perm key l.length l (Nat.le_refl _))) ?_
  exact (List.filter_sublist _).subperm

theorem findIdenticalFiles_members_subperm (files : List FileInfo) :
    ((findIdenticalFiles files).flatMap membersOf).Subperm files := by
  rw [List.flatMap_def]
  unfold findIdenticalFiles
  rw [List.map_filterMap]
  refine groups_filterMap_members_subperm _ files _ ?_
  rintro ⟨k, g⟩ m hm
  simp only at hm
  by_cases hlen : g.length < 2
  · rw [if_pos hlen] at hm; cases hm
  · rw [if_neg hlen] at hm
    cases hsort : List.insertionSort fiNameLenRel g with
    | nil => rw [hsort] at hm; cases hm
    | cons o d =>
      rw [hsort] at hm
      simp only [Option.map_some, membersOf] at hm
      cases hm
      have := List.perm_insertionSort fiNameLenRel g
      rw [hsort] at this
      exact this

theorem findVisuallySimilar_members_subperm (files : List FileInfo)
    (excl : Finset String) :
    ((findVisuallySimilar files excl).flatMap membersOf).Subperm
      (files.filter (visualEligible excl)) := by
  rw [List.flatMap_def]
  unfold findVisuallySimilar
  rw [List.map_filterMap]
  refine groups_filterMap_members_subperm _ _ _ ?_
  rintro ⟨k, g⟩ m hm
  simp only at hm
  by_cases hlen : g.length < 2
  · rw [if_pos hlen] at hm; cases hm
  · rw [if_neg hlen] at hm
    cases hsort : List.insertionSort fiQualityRel g with
    | nil => rw [hsort] at hm; cases hm
    | cons o d =>
      rw [hsort] at hm
      simp only [Option.map_some, membersOf] at hm
      cases hm
      have := List.perm_insertionSort fiQualityRel g
      rw [hsort] at this
      exact this

theorem idMember_hash_excluded (files : List FileInfo) {a : FileInfo}
    (ha : a ∈ (findIdenticalFiles files).flatMap membersOf) :
    ∃ k, a.contentHash = some k ∧
      k ∈ excludeHashesOf (findIdenticalFiles files) := by
  obtain ⟨dg, hdg, hadg⟩ := List.mem_flatMap.mp ha
  obtain ⟨⟨k, g⟩, hkg, hF⟩ := List.mem_filterMap.mp hdg
  by_cases hlen : g.length < 2
  · rw [if_pos hlen] at hF; cases hF
  · rw [if_neg hlen] at hF
    cases hsort : List.insertionSort fiNameLenRel g with
    | nil =>
      rw [hsort] at hF; cases hF
    | cons o d =>
      rw [hsort] at hF
      cases hF
      have hperm : (o :: d).Perm g := by
        have := List.perm_insertionSort fiNameLenRel g
        rwa [hsort] at this
      have hkg' : (k, g) ∈ groupByKeyFuel (fun f => f.contentHash)
          files.length files := hkg
      have hkey := groupByKeyFuel_key (fun f => f.contentHash) files.length files
        (Nat.le_refl _) k g hkg' 
      have hak : a.contentHash = some k := by
        refine hkey a ?_
        exact hperm.subset (by simpa [membersOf] using hadg)
      refine ⟨k, hak, ?_⟩
      -- the duplicates list d is nonempty since |g| ≥ 2
      have hdlen : d ≠ [] := by
        intro hdn
        have := hperm.length_eq
        rw [hdn] at this
        simp at this
        omega
      obtain ⟨d0, hd0⟩ := List.exists_mem_of_ne_nil d hdlen
      have hd0g : d0 ∈ g := hperm.subset (List.mem_cons_of_mem _ hd0)
      have hd0k : d0.contentHash = some k := hkey d0 hd0g
      unfold excludeHashesOf
      rw [List.mem_toFinset]
      refine List.mem_filterMap.mpr ⟨d0, ?_, hd0k⟩
      exact List.mem_flatMap.mpr ⟨⟨o, d, .identical⟩, hdg, hd0⟩

theorem scanGroups_members_paths_nodup (fs : FS)
    (hnd : (fs.files.map Prod.fst).Nodup) :
    (((scanGroups fs).flatMap membersOf).map (·.filepath)).Nodup := by
  have hfiles : ((findMediaFiles fs).map (·.filepath)).Nodup :=
    (findMediaFiles_paths_sublist fs).nodup hnd
  unfold scanGroups
  rw [List.flatMap_append, List.map_append, List.nodup_append]
  refine ⟨?_, ?_, ?_⟩
  · exact subperm_nodup
      (subperm_map _ (findIdenticalFiles_members_subperm (findMediaFiles fs))) hfiles
  · refine subperm_nodup
      (subperm_map _ (findVisuallySimilar_members_subperm (findMediaFiles fs) _)) ?_
    exact ((List.filter_sublist _).map _).nodup hfiles
  · -- disjointness of the two phases' member paths
    intro p hp1 hp2
    obtain ⟨a1, ha1, hpa1⟩ := List.mem_map.mp hp1
    obtain ⟨a2, ha2, hpa2⟩ := List.mem_map.mp hp2
    have ha1f : a1 ∈ findMediaFiles fs :=
      (findIdenticalFiles_members_subperm _).subset ha1
    have ha2fil : a2 ∈ (findMediaFiles fs).filter
        (visualEligible (excludeHashesOf (findIdenticalFiles (findMediaFiles fs)))) :=
      (findVisuallySimilar_members_subperm _ _).subset ha2
    have ha2f : a2 ∈ findMediaFiles fs := List.mem_of_mem_filter ha2fil
    have heq12 : a1 = a2 := by
      refine List.inj_on_of_nodup_map hfiles ha1f ha2f ?_
      rw [hpa1, hpa2]
    obtain ⟨k, hk, hkexcl⟩ := idMember_hash_excluded (findMediaFiles fs) ha1
    have helig := (List.mem_filter.mp ha2fil).2
    unfold visualEligible at helig
    rw [Bool.and_eq_true] at helig
    have h2 := helig.2
    rw [← heq12, hk] at h2
    simp [hkexcl] at h2

theorem findIdenticalFiles_shape (files : List FileInfo) {dg : DuplicateGroup}
    (h : dg ∈ findIdenticalFiles files) :
    dg.duplicates ≠ [] ∧ dg.reason = .identical := by
  obtain ⟨⟨k, g⟩, hkg, hF⟩ := List.mem_filterMap.mp h
  by_cases hlen : g.length < 2
  · rw [if_pos hlen] at hF; cases hF
  · rw [if_neg hlen] at hF
    cases hsort : List.insertionSort fiNameLenRel g with
    | nil => rw [hsort] at hF; cases hF
    | cons o d =>
      rw [hsort] at hF
      cases hF
      have hperm : (o :: d).Perm g := by
        have := List.perm_insertionSort fiNameLenRel g
        rwa [hsort] at this
      refine ⟨?_, rfl⟩
      intro hdn
      have hdn2 : d = [] := hdn
      have := hperm.length_eq
      rw [hdn2] at this
      simp at this
      omega

theorem findVisuallySimilar_shape (files : List FileInfo) (excl : Finset String)
    {dg : DuplicateGroup} (h : dg ∈ findVisuallySimilar files excl) :
    dg.duplicates ≠ [] ∧ dg.reason = .visual := by
  obtain ⟨⟨k, g⟩, hkg, hF⟩ := List.mem_filterMap.mp h
  by_cases hlen : g.length < 2
  · rw [if_pos hlen] at hF; cases hF
  · rw [if_neg hlen] at hF
    cases hsort : List.insertionSort fiQualityRel g with
    | nil => rw [hsort] at hF; cases hF
    | cons o d =>
      rw [hsort] at hF
      cases hF
      have hperm : (o :: d).Perm g := by
        have := List.perm_insertionSort fiQualityRel g
        rwa [hsort] at this
      refine ⟨?_, rfl⟩
      intro hdn
      have hdn2 : d = [] := hdn
      have := hperm.length_eq
      rw [hdn2] at this
      simp at this
      omega

theorem mem_findMediaFiles {fs : FS} {f : FileInfo}
    (h : f ∈ findMediaFiles fs) : ∃ d, (f.filepath, d) ∈ fs.files := by
  obtain ⟨e, he, hef⟩ := List.mem_filterMap.mp h
  by_cases hc : extLowerOf e.1 ∈ scannerMediaExtensions
  · rw [if_pos hc] at hef
    cases hef
    exact ⟨e.2, by simpa [mkFileInfo] using he⟩
  · rw [if_neg hc] at hef; cases hef

theorem fnameGroups_members_subperm (infos : List IInfo) :
    ((fnameGroups infos).flatten).Subperm infos := by
  unfold fnameGroups
  refine groups_filterMap_members_subperm _ infos _ ?_
  rintro ⟨k, g⟩ m hm
  simp only at hm
  by_cases hlen : g.length < 2
  · rw [if_pos hlen] at hm; cases hm
  · rw [if_neg hlen] at hm
    cases hm
    exact List.perm_insertionSort iQualityRel g

/-- C10: deletion never touches a group's survivor.  In every group
found by the standalone scanner the selected original is not among the
duplicates; after the scanner's deletion pass the original — present
on disk beforehand — is still on disk unchanged while every duplicate
of every group is gone; and the deduplicator's filename pass likewise
keeps each group's quality-sorted head and removes exactly the
rest. -/
theorem C10_originals_kept :
    (∀ files : List FileInfo, (files.map (·.filepath)).Nodup →
      ∀ g ∈ findIdenticalFiles files, g.duplicates ≠ [] ∧
        g.original.filepath ∉ g.duplicates.map (·.filepath)) ∧
    (∀ fs : FS, (fs.files.map Prod.fst).Nodup →
      ∀ g ∈ scanGroups fs,
        (scan fs false).fs.lookup g.original.filepath =
          fs.lookup g.original.filepath ∧
        fs.lookup g.original.filepath ≠ none ∧
        g.duplicates ≠ [] ∧
        (∀ d ∈ g.duplicates, (scan fs false).fs.lookup d.filepath = none)) ∧
    (∀ (infos : List IInfo) (fs : FS), (infos.map (·.path)).Nodup →
      ∀ x xs, (x :: xs) ∈ fnameGroups infos →
        ((removeFilenameDuplicates infos fs).2.lookup x.path = fs.lookup x.path ∧
         ∀ d ∈ xs, (removeFilenameDuplicates infos fs).2.lookup d.path = none)) := by
  refine ⟨?_, ?_, ?_⟩
  · -- findIdenticalFiles: original is never among the duplicates
    intro files hnd g hg
    refine ⟨(findIdenticalFiles_shape files hg).1, ?_⟩
    have hmem : membersOf g ∈ (findIdenticalFiles files).map membersOf :=
      List.mem_map.mpr ⟨g, hg, rfl⟩
    have hsub : (membersOf g).Sublist ((findIdenticalFiles files).flatMap membersOf) := by
      rw [List.flatMap_def]
      exact List.sublist_flatten_of_mem hmem
    have hnodup : ((membersOf g).map (·.filepath)).Nodup := by
      refine (hsub.map _).nodup ?_
      exact subperm_nodup (subperm_map _ (findIdenticalFiles_members_subperm files)) hnd
    rw [membersOf, List.map_cons, List.nodup_cons] at hnodup
    exact hnodup.1
  · -- scan: per-group retention on the combined group list
    intro fs hnd g hg
    have hnd' := scanGroups_members_paths_nodup fs hnd
    have hflat : (((scanGroups fs).map membersOf).flatten.map (·.filepath)).Nodup := by
      rw [← List.flatMap_def]
      exact hnd'
    have hgm : (g.original :: g.duplicates) ∈ (scanGroups fs).map membersOf :=
      List.mem_map.mpr ⟨g, hg, rfl⟩
    have hret := retention (·.filepath) ((scanGroups fs).map membersOf) fs hflat
      g.original g.duplicates hgm
    have hlist : (((scanGroups fs).map membersOf).flatMap (·.drop 1)).map (·.filepath) =
        (((scanGroups fs).flatMap (·.duplicates)).map (·.filepath)) := by
      rw [List.flatMap_map]
      rfl
    have hfs : (scan fs false).fs =
        unlinkAll fs ((((scanGroups fs).map membersOf).flatMap (·.drop 1)).map (·.filepath)) := by
      rw [hlist]
      rfl
    refine ⟨by rw [hfs]; exact hret.1, ?_, ?_, ?_⟩
    · -- the original is on disk beforehand
      have horigf : g.original ∈ findMediaFiles fs := by
        unfold scanGroups at hg
        rcases List.mem_append.mp hg with hid | hvis
        · exact (findIdenticalFiles_members_subperm _).subset
            (List.mem_flatMap.mpr ⟨g, hid, List.mem_cons_self _ _⟩)
        · exact List.mem_of_mem_filter ((findVisuallySimilar_members_subperm _ _).subset
            (List.mem_flatMap.mpr ⟨g, hvis, List.mem_cons_self _ _⟩))
      obtain ⟨d, hd⟩ := mem_findMediaFiles horigf
      rw [FS.lookup, lookup_of_mem_nodup fs.files hd hnd]
      simp
    · unfold scanGroups at hg
      rcases List.mem_append.mp hg with hid | hvis
      · exact (findIdenticalFiles_shape _ hid).1
      · exact (findVisuallySimilar_shape _ _ hvis).1
    · intro d hd
      rw [hfs]
      exact hret.2 d hd
  · -- removeFilenameDuplicates: retention on the filename groups
    intro infos fs hnd x xs hx
    have hnodup : (((fnameGroups infos).flatten).map (·.path)).Nodup :=
      subperm_nodup (subperm_map _ (fnameGroups_members_subperm infos)) hnd
    have hret := retention (·.path) (fnameGroups infos) fs hnodup x xs hx
    exact ⟨hret.1, hret.2⟩

theorem remFrom_oob (infos : List VInfo) :
    ∀ (rem j : Nat) (used : Finset Nat), infos.length ≤ j →
      remFrom infos j rem used = [] := by
  intro rem
  cases rem with
  | zero => intro j used h; rfl
  | succ rem =>
    intro j used h
    unfold remFrom
    rw [List.getElem?_eq_none h]

theorem remFrom_step_mem {infos : List VInfo} {j : Nat} {y : VInfo}
    {used : Finset Nat} (rem : Nat)
    (hj : infos[j]? = some y) (hu : j ∈ used) :
    remFrom infos j (rem + 1) used = remFrom infos (j + 1) rem used := by
  conv_lhs => unfold remFrom
  simp [hj, hu]

theorem remFrom_step_new {infos : List VInfo} {j : Nat} {y : VInfo}
    {used : Finset Nat} (rem : Nat)
    (hj : infos[j]? = some y) (hu : j ∉ used) :
    remFrom infos j (rem + 1) used = y :: remFrom infos (j + 1) rem used := by
  conv_lhs => unfold remFrom
  simp [hj, hu]

theorem get?_lt {infos : List VInfo} {j : Nat} {y : VInfo}
    (hj : infos[j]? = some y) : j < infos.length :=
  (List.getElem?_eq_some_iff.mp hj).1

theorem remFrom_fuel_irrel (infos : List VInfo) :
    ∀ (rem rem' j : Nat) (used : Finset Nat),
      infos.length ≤ j + rem → infos.length ≤ j + rem' →
      remFrom infos j rem used = remFrom infos j rem' used := by
  intro rem
  induction rem with
  | zero =>
    intro rem' j used h h'
    rw [remFrom_oob infos rem' j used (by omega)]
    rfl
  | succ rem ih =>
    intro rem' j used h h'
    cases hj : infos[j]? with
    | none =>
      have hlen : infos.length ≤ j := by
        by_contra hlt
        rw [List.getElem?_eq_getElem (by omega)] at hj
        cases hj
      rw [remFrom_oob infos _ j used hlen, remFrom_oob infos rem' j used hlen]
    | some y =>
      have hjlt : j < infos.length := get?_lt hj
      cases rem' with
      | zero => omega
      | succ rem' =>
        by_cases hu : j ∈ used
        · rw [remFrom_step_mem rem hj hu, remFrom_step_mem rem' hj hu]
          exact ih rem' (j + 1) used (by omega) (by omega)
        · rw [remFrom_step_new rem hj hu, remFrom_step_new rem' hj hu]
          rw [ih rem' (j + 1) used (by omega) (by omega)]

theorem scanFrom_zero (similar : String → String → Bool) (infos : List VInfo)
    (sh : String) (j : Nat) (used : Finset Nat) :
    scanFrom similar infos sh j 0 used = ([], used) := rfl

theorem scanFrom_oob {infos : List VInfo} {j : Nat}
    (similar : String → String → Bool) (sh : String) (rem : Nat)
    (used : Finset Nat) (hj : infos[j]? = none) :
    scanFrom similar infos sh j (rem + 1) used = ([], used) := by
  conv_lhs => unfold scanFrom
  simp [hj]

theorem scanFrom_step_mem {infos : List VInfo} {j : Nat} {y : VInfo}
    {used : Finset Nat} (similar : String → String → Bool) (sh : String)
    (rem : Nat) (hj : infos[j]? = some y) (hu : j ∈ used) :
    scanFrom similar infos sh j (rem + 1) used =
      scanFrom similar infos sh (j + 1) rem used := by
  conv_lhs => unfold scanFrom
  simp [hj, hu]

theorem scanFrom_step_sim {infos : List VInfo} {j : Nat} {y : VInfo}
    {used : Finset Nat} {similar : String → String → Bool} {sh : String}
    (rem : Nat) (hj : infos[j]? = some y) (hu : j ∉ used)
    (hs : similar sh y.hash = true) :
    scanFrom similar infos sh j (rem + 1) used =
      ((y :: (scanFrom similar infos sh (j + 1) rem (insert j used)).1),
        (scanFrom similar infos sh (j + 1) rem (insert j used)).2) := by
  conv_lhs => unfold scanFrom
  simp [hj, hu, hs]

theorem scanFrom_step_nosim {infos : List VInfo} {j : Nat} {y : VInfo}
    {used : Finset Nat} {similar : String → String → Bool} {sh : String}
    (rem : Nat) (hj : infos[j]? = some y) (hu : j ∉ used)
    (hs : ¬ similar sh y.hash = true) :
    scanFrom similar infos sh j (rem + 1) used =
      scanFrom similar infos sh (j + 1) rem used := by
  conv_lhs => unfold scanFrom
  simp [hj, hu, hs]

theorem scanFrom_used_mono (similar : String → String → Bool)
    (infos : List VInfo) (sh : String) :
    ∀ (rem j : Nat) (used : Finset Nat),
      used ⊆ (scanFrom similar infos sh j rem used).2 := by
  intro rem
  induction rem with
  | zero => intro j used; rw [scanFrom_zero]
  | succ rem ih =>
    intro j used
    cases hj : infos[j]? with
    | none => rw [scanFrom_oob similar sh rem used hj]
    | some y =>
      by_cases hu : j ∈ used
      · rw [scanFrom_step_mem similar sh rem hj hu]; exact ih (j + 1) used
      · by_cases hs : similar sh y.hash
        · rw [scanFrom_step_sim rem hj hu hs]
          exact Finset.Subset.trans (Finset.subset_insert _ _) (ih (j + 1) _)
        · rw [scanFrom_step_nosim rem hj hu hs]; exact ih (j + 1) used

theorem scanFrom_used_below (similar : String → String → Bool)
    (infos : List VInfo) (sh : String) :
    ∀ (rem j : Nat) (used : Finset Nat) (k : Nat), k < j →
      (k ∈ (scanFrom similar infos sh j rem used).2 ↔ k ∈ used) := by
  intro rem
  induction rem with
  | zero => intro j used k hk; rw [scanFrom_zero]
  | succ rem ih =>
    intro j used k hk
    cases hj : infos[j]? with
    | none => rw [scanFrom_oob similar sh rem used hj]
    | some y =>
      by_cases hu : j ∈ used
      · rw [scanFrom_step_mem similar sh rem hj hu]; exact ih (j + 1) used k (by omega)
      · by_cases hs : similar sh y.hash
        · rw [scanFrom_step_sim rem hj hu hs]
          rw [ih (j + 1) _ k (by omega)]
          rw [Finset.mem_insert]
          constructor
          · rintro (rfl | hk'); · omega
            · exact hk'
          · exact fun hk' => Or.inr hk'
        · rw [scanFrom_step_nosim rem hj hu hs]; exact ih (j + 1) used k (by omega)

theorem remFrom_insert_lt (infos : List VInfo) :
    ∀ (rem j k : Nat) (used : Finset Nat), k < j →
      remFrom infos j rem (insert k used) = remFrom infos j rem used := by
  intro rem
  induction rem with
  | zero => intro j k used hk; rfl
  | succ rem ih =>
    intro j k used hk
    cases hj : infos[j]? with
    | none =>
      have hlen : infos.length ≤ j := by
        by_contra hlt
        rw [List.getElem?_eq_getElem (by omega)] at hj
        cases hj
      rw [remFrom_oob infos _ j _ hlen, remFrom_oob infos _ j _ hlen]
    | some y =>
      have hne : j ∉ ({k} : Finset Nat) := by simp; omega
      by_cases hu : j ∈ used
      · rw [remFrom_step_mem rem hj (Finset.mem_insert_of_mem hu),
          remFrom_step_mem rem hj hu]
        exact ih (j + 1) k used (by omega)
      · have hu' : j ∉ insert k used := by
          rw [Finset.mem_insert]
          rintro (rfl | hmem) <;> [omega; exact hu hmem]
        rw [remFrom_step_new rem hj hu', remFrom_step_new rem hj hu]
        rw [ih (j + 1) k used (by omega)]

theorem scanFrom_spec (similar : String → String → Bool) (infos : List VInfo)
    (sh : String) :
    ∀ (rem j : Nat) (used : Finset Nat), infos.length ≤ j + rem →
      ((scanFrom similar infos sh j rem used).1 =
        (remFrom infos j rem used).filter (fun y => similar sh y.hash)) ∧
      (∀ rem₂, infos.length ≤ j + rem₂ →
        remFrom infos j rem₂ (scanFrom similar infos sh j rem used).2 =
          (remFrom infos j rem used).filter (fun y => ¬ similar sh y.hash)) := by
  intro rem
  induction rem with
  | zero =>
    intro j used h
    rw [scanFrom_zero]
    constructor
    · rfl
    · intro rem₂ h₂
      rw [remFrom_oob infos rem₂ j used (by omega)]
      rfl
  | succ rem ih =>
    intro j used h
    cases hj : infos[j]? with
    | none =>
      have hlen : infos.length ≤ j := by
        by_contra hlt
        rw [List.getElem?_eq_getElem (by omega)] at hj
        cases hj
      rw [scanFrom_oob similar sh rem used hj]
      constructor
      · rw [remFrom_oob infos _ j used hlen]
        rfl
      · intro rem₂ h₂
        rw [remFrom_oob infos _ j used hlen, remFrom_oob infos _ j used hlen]
        rfl
    | some y =>
      have hjlt : j < infos.length := get?_lt hj
      by_cases hu : j ∈ used
      · rw [scanFrom_step_mem similar sh rem hj hu]
        obtain ⟨ih1, ih2⟩ := ih (j + 1) used (by omega)
        constructor
        · rw [ih1, remFrom_step_mem rem hj hu]
        · intro rem₂ h₂
          cases rem₂ with
          | zero => omega
          | succ rem₂ =>
            have humem : j ∈ (scanFrom similar infos sh (j + 1) rem used).2 :=
              scanFrom_used_mono similar infos sh rem (j + 1) used hu
            rw [remFrom_step_mem rem₂ hj humem, remFrom_step_mem rem hj hu]
            exact ih2 rem₂ (by omega)
      · by_cases hs : similar sh y.hash
        · rw [scanFrom_step_sim rem hj hu hs]
          obtain ⟨ih1, ih2⟩ := ih (j + 1) (insert j used) (by omega)
          constructor
          · rw [remFrom_step_new rem hj hu]
            rw [List.filter_cons_of_pos (by simpa using hs)]
            simp only
            rw [ih1, remFrom_insert_lt infos rem (j + 1) j used (by omega)]
          · intro rem₂ h₂
            cases rem₂ with
            | zero => omega
            | succ rem₂ =>
              have humem : j ∈ (scanFrom similar infos sh (j + 1) rem (insert j used)).2 :=
                scanFrom_used_mono similar infos sh rem (j + 1) _
                  (Finset.mem_insert_self _ _)
              rw [remFrom_step_mem rem₂ hj humem]
              rw [remFrom_step_new rem hj hu]
              rw [List.filter_cons_of_neg (by simpa using hs)]
              rw [ih2 rem₂ (by omega), remFrom_insert_lt infos rem (j + 1) j used (by omega)]
        · rw [scanFrom_step_nosim rem hj hu hs]
          obtain ⟨ih1, ih2⟩ := ih (j + 1) used (by omega)
          constructor
          · rw [remFrom_step_new rem hj hu]
            rw [List.filter_cons_of_neg (by simpa using hs)]
            exact ih1
          · intro rem₂ h₂
            cases rem₂ with
            | zero => omega
            | succ rem₂ =>
              have hunot : j ∉ (scanFrom similar infos sh (j + 1) rem used).2 := by
                rw [scanFrom_used_below similar infos sh rem (j + 1) used j (by omega)]
                exact hu
              rw [remFrom_step_new rem₂ hj hunot]
              rw [remFrom_step_new rem hj hu]
              rw [List.filter_cons_of_pos ?pos]
              case pos => simpa using hs
              rw [ih2 rem₂ (by omega)]

theorem specGreedyFuel_congr (similar : String → String → Bool) :
    ∀ (f1 f2 : Nat) (l : List VInfo), l.length ≤ f1 → l.length ≤ f2 →
      specGreedyFuel similar f1 l = specGreedyFuel similar f2 l := by
  intro f1
  induction f1 with
  | zero =>
    intro f2 l h1 h2
    cases l with
    | nil => cases f2 <;> rfl
    | cons x rest => simp at h1
  | succ f1 ih =>
    intro f2 l h1 h2
    cases l with
    | nil => cases f2 <;> rfl
    | cons x rest =>
      cases f2 with
      | zero => simp at h2
      | succ g =>
        simp only [specGreedyFuel]
        rw [ih g _ (le_trans (List.length_filter_le _ _)
            (Nat.le_of_succ_le_succ (by simpa using h1)))
          (le_trans (List.length_filter_le _ _)
            (Nat.le_of_succ_le_succ (by simpa using h2)))]

theorem specGreedyFuel_irrel (similar : String → String → Bool)
    (fuel : Nat) (l : List VInfo) (hl : l.length ≤ fuel) :
    specGreedyFuel similar fuel l = specGreedyClusters similar l :=
  specGreedyFuel_congr similar fuel l.length l hl le_rfl

theorem specGreedyClusters_cons (similar : String → String → Bool)
    (x : VInfo) (rest : List VInfo) :
    specGreedyClusters similar (x :: rest) =
      (x :: rest.filter (fun y => similar x.hash y.hash)) ::
        specGreedyClusters similar
          (rest.filter (fun y => ¬ similar x.hash y.hash)) := by
  show specGreedyFuel similar (x :: rest).length (x :: rest) = _
  simp only [specGreedyFuel, List.length_cons]
  rw [specGreedyFuel_irrel similar rest.length _ (List.length_filter_le _ _)]

theorem outerLoop_zero (similar : String → String → Bool) (infos : List VInfo)
    (i : Nat) (used : Finset Nat) :
    outerLoop similar infos i 0 used = [] := rfl

theorem outerLoop_oob {infos : List VInfo} {i : Nat}
    (similar : String → String → Bool) (rem : Nat) (used : Finset Nat)
    (hi : infos[i]? = none) :
    outerLoop similar infos i (rem + 1) used = [] := by
  conv_lhs => unfold outerLoop
  simp [hi]

theorem outerLoop_step_mem {infos : List VInfo} {i : Nat} {x : VInfo}
    {used : Finset Nat} (similar : String → String → Bool) (rem : Nat)
    (hi : infos[i]? = some x) (hu : i ∈ used) :
    outerLoop similar infos i (rem + 1) used =
      outerLoop similar infos (i + 1) rem used := by
  conv_lhs => unfold outerLoop
  simp [hi, hu]

theorem outerLoop_step_new {infos : List VInfo} {i : Nat} {x : VInfo}
    {used : Finset Nat} (similar : String → String → Bool) (rem : Nat)
    (hi : infos[i]? = some x) (hu : i ∉ used) :
    outerLoop similar infos i (rem + 1) used =
      (x :: (scanFrom similar infos x.hash (i + 1)
          (infos.length - (i + 1)) (insert i used)).1) ::
        outerLoop similar infos (i + 1) rem
          (scanFrom similar infos x.hash (i + 1)
            (infos.length - (i + 1)) (insert i used)).2 := by
  conv_lhs => unfold outerLoop
  simp [hi, hu]

theorem outerLoop_spec (similar : String → String → Bool) (infos : List VInfo) :
    ∀ (rem i : Nat) (used : Finset Nat), infos.length ≤ i + rem →
      outerLoop similar infos i rem used =
        specGreedyClusters similar (remFrom infos i rem used) := by
  intro rem
  induction rem with
  | zero =>
    intro i used h
    rw [outerLoop_zero]
    rfl
  | succ rem ih =>
    intro i used h
    cases hi : infos[i]? with
    | none =>
      have hlen : infos.length ≤ i := by
        by_contra hlt
        rw [List.getElem?_eq_getElem (by omega)] at hi
        cases hi
      rw [outerLoop_oob similar rem used hi, remFrom_oob infos _ i used hlen]
      rfl
    | some x =>
      have hilt : i < infos.length := get?_lt hi
      by_cases hu : i ∈ used
      · rw [outerLoop_step_mem similar rem hi hu,
          remFrom_step_mem rem hi hu]
        exact ih (i + 1) used (by omega)
      · rw [outerLoop_step_new similar rem hi hu,
          remFrom_step_new rem hi hu,
          specGreedyClusters_cons]
        obtain ⟨hs1, hs2⟩ := scanFrom_spec similar infos x.hash
          (infos.length - (i + 1)) (i + 1) (insert i used) (by omega)
        congr 1
        · congr 1
          rw [hs1, remFrom_insert_lt infos _ (i + 1) i used (by omega)]
          congr 1
          exact remFrom_fuel_irrel infos _ rem (i + 1) used (by omega) (by omega)
        · rw [ih (i + 1) _ (by omega)]
          congr 1
          rw [hs2 rem (by omega),
            remFrom_insert_lt infos _ (i + 1) i used (by omega)]
          congr 1
          exact remFrom_fuel_irrel infos _ rem (i + 1) used (by omega) (by omega)

theorem remFrom_empty (infos : List VInfo) :
    ∀ (rem j : Nat), infos.length ≤ j + rem →
      remFrom infos j rem (∅ : Finset Nat) = infos.drop j := by
  intro rem
  induction rem with
  | zero =>
    intro j h
    rw [List.drop_eq_nil_of_le (by omega)]
    rfl
  | succ rem ih =>
    intro j h
    cases hj : infos[j]? with
    | none =>
      have hlen : infos.length ≤ j := by
        by_contra hlt
        rw [List.getElem?_eq_getElem (by omega)] at hj
        cases hj
      rw [remFrom_oob infos _ j _ hlen, List.drop_eq_nil_of_le hlen]
    | some y =>
      have hjlt : j < infos.length := get?_lt hj
      rw [remFrom_step_new rem hj (Finset.not_mem_empty j)]
      rw [ih (j + 1) (by omega)]
      rw [List.drop_eq_getElem_cons hjlt]
      congr 1
      exact (List.getElem?_eq_some_iff.mp hj).choose_spec.symm ▸ rfl

/-- The pipeline visual phase computes exactly the spec's greedy
clusters. -/
theorem visualClusters_eq_spec (similar : String → String → Bool)
    (infos : List VInfo) :
    visualClusters similar infos = specGreedyClusters similar infos := by
  unfold visualClusters
  rw [outerLoop_spec similar infos infos.length 0 ∅ (by omega)]
  rw [remFrom_empty infos infos.length 0 (by omega), List.drop_zero]

/-- C8 (amended): the pipeline-integrated visual pass
(`removeVisualDuplicates`) clusters greedily exactly as specified —
files are iterated in a fixed order, each not-yet-assigned file seeds
a cluster that absorbs every later not-yet-assigned file whose hash is
similar to the seed's; clusters of size 1 are discarded, and in each
surviving group the head of the quality sort (greatest pixel count,
ties by byte size) precedes every member, the rest being unlinked.
The standalone scanner (`findVisuallySimilar`), by contrast, groups
images by *exact equality* of visual hash — every member of a group
carries the same hash string — not by hamming-distance threshold,
again keeping the quality-sort head as the survivor. -/
theorem C8_visual_clustering_amended (similar : String → String → Bool)
    (infos : List VInfo) (files : List FileInfo) (excl : Finset String) :
    visualClusters similar infos = specGreedyClusters similar infos ∧
    (∀ g ∈ visualGroups similar infos,
      2 ≤ g.length ∧ ∀ x xs, g = x :: xs → ∀ y ∈ g, vQualityRel x y) ∧
    (∀ fs paths, removeVisualDuplicates similar fs paths =
      (((visualGroups similar (buildVInfos fs paths)).flatMap
          fun g => g.drop 1).length,
        unlinkAll fs (((visualGroups similar (buildVInfos fs paths)).flatMap
          fun g => g.drop 1).map (·.path)))) ∧
    (∀ dg ∈ findVisuallySimilar files excl,
      dg.duplicates ≠ [] ∧
      (∃ k, ∀ m ∈ membersOf dg, m.visualHash = some k) ∧
      (∀ m ∈ membersOf dg, fiQualityRel dg.original m)) := by
  refine ⟨visualClusters_eq_spec similar infos, ?_, ?_, ?_⟩
  · intro g hg
    obtain ⟨c, hc, hF⟩ := List.mem_filterMap.mp hg
    by_cases hlen : c.length < 2
    · rw [if_pos hlen] at hF; cases hF
    · rw [if_neg hlen] at hF
      cases hF
      have hperm := List.perm_insertionSort vQualityRel c
      constructor
      · rw [hperm.length_eq]; omega
      · intro x xs hx y hy
        exact insertionSort_head_rel vQualityRel c x xs hx y (hperm.subset hy)
  · intro fs paths
    rfl
  · intro dg hdg
    obtain ⟨⟨k, g⟩, hkg, hF⟩ := List.mem_filterMap.mp hdg
    by_cases hlen : g.length < 2
    · rw [if_pos hlen] at hF; cases hF
    · rw [if_neg hlen] at hF
      cases hsort : List.insertionSort fiQualityRel g with
      | nil => rw [hsort] at hF; cases hF
      | cons o d =>
        rw [hsort] at hF
        cases hF
        have hperm : (o :: d).Perm g := by
          have := List.perm_insertionSort fiQualityRel g
          rwa [hsort] at this
        have hkey : ∀ a ∈ g, a.visualHash = some k := by
          have hkg' : (k, g) ∈ groupByKeyFuel
              (fun f : FileInfo => f.visualHash)
              (files.filter (visualEligible excl)).length
              (files.filter (visualEligible excl)) := hkg
          exact groupByKeyFuel_key _ _ _ le_rfl k g hkg'
        refine ⟨?_, ⟨k, ?_⟩, ?_⟩
        · intro hdn
          have hdn2 : d = [] := hdn
          have := hperm.length_eq
          rw [hdn2] at this
          simp at this
          omega
        · intro m hm
          have hm' : m ∈ o :: d := hm
          exact hkey m (hperm.subset hm')
        · intro m hm
          have hm' : m ∈ o :: d := hm
          exact insertionSort_head_rel fiQualityRel g o d hsort m
            (hperm.subset hm')

/-- C8 counterexample to the original claim: two images whose visual
hashes are at hamming distance 1 — within a threshold of 1 — and whose
contents differ are clustered together by the specified greedy
hamming-threshold clustering, yet the standalone scanner finds no
visual duplicate group at all and deletes nothing, because it groups
by exact hash equality. -/
theorem C8_hamming_counterexample :
    hammingDistance "0" "1" = 1 ∧
    specGreedyClusters (areVisuallySimular 1)
        (buildVInfos exVFS1 (findImageFiles exVFS1)) =
      [[⟨"d/a.jpg", "0", 100, 10⟩, ⟨"d/b.jpg", "1", 100, 10⟩]] ∧
    (scan exVFS1 false).groups = [] ∧
    (scan exVFS1 false).deleted = 0 ∧
    (scan exVFS1 false).fs.lookup "d/b.jpg" =
      some ⟨10, "cb", some "1", some (10, 10)⟩ := by decide

/-- Witness for the amended C8 at a concrete two-image directory. -/
theorem C8_visual_clustering_amended_witness :
    (visualClusters (areVisuallySimular 0) exVInfos2 =
      specGreedyClusters (areVisuallySimular 0) exVInfos2) ∧
    (2 ≤ exG0.length ∧
      ∀ y ∈ exG0, vQualityRel ⟨"d/bb.jpg", "h", 200, 20⟩ y) ∧
    (exDG0.duplicates ≠ [] ∧
      (∃ k, ∀ m ∈ membersOf exDG0, m.visualHash = some k) ∧
      ∀ m ∈ membersOf exDG0, fiQualityRel exDG0.original m) := by
  obtain ⟨h1, h2, h3, h4⟩ := C8_visual_clustering_amended (areVisuallySimular 0) exVInfos2
    (findMediaFiles exVFS2) ∅
  refine ⟨h1, ?_, ?_⟩
  · have hg : exG0 ∈ visualGroups (areVisuallySimular 0) exVInfos2 := by decide
    obtain ⟨hlen, hmax⟩ := h2 exG0 hg
    exact ⟨hlen, fun y hy => hmax _ _ rfl y hy⟩
  · have hdg : exDG0 ∈ findVisuallySimilar (findMediaFiles exVFS2) ∅ := by
      decide
    exact h4 exDG0 hdg

/-- Witness for C10 at concrete duplicate groups. -/
theorem C10_originals_kept_witness :
    (exDGI.duplicates ≠ [] ∧
      exDGI.original.filepath ∉ exDGI.duplicates.map (·.filepath)) ∧
    ((scan exScanFS false).fs.lookup exDGI.original.filepath =
        exScanFS.lookup exDGI.original.filepath ∧
      exScanFS.lookup exDGI.original.filepath ≠ none ∧
      exDGI.duplicates ≠ [] ∧
      (∀ d ∈ exDGI.duplicates,
        (scan exScanFS false).fs.lookup d.filepath = none)) ∧
    ((removeFilenameDuplicates exIInfos exFnFS).2.lookup exI1.path =
        exFnFS.lookup exI1.path ∧
      ∀ d ∈ [exI2],
        (removeFilenameDuplicates exIInfos exFnFS).2.lookup d.path = none) := by
  obtain ⟨h1, h2, h3⟩ := C10_originals_kept
  exact ⟨h1 (findMediaFiles exScanFS) (by decide) exDGI (by decide),
    h2 exScanFS (by decide) exDGI (by decide),
    h3 exIInfos exFnFS (by decide) exI1 [exI2] (by decide)⟩
